import Mathlib

/-!
Verification of the readable-NBT converter (src/NbtHandling.py).

The program is a recursive-descent parser from a human-readable NBT surface
syntax to a typed "Mod API" tree of nested dictionaries, plus a serializer
back to the readable syntax.  This file is a shallow embedding: strings are
`List Char`, Python dictionaries built by the parser are ordered association
lists, Python `int` is `Int`, Python `float` is modelled exactly by `PyFloat`
(a rational for finite values; the model agrees with IEEE doubles on every
value whose decimal literal is exactly representable, which covers all inputs
appearing in the theorems below).  Each parse function takes an explicit fuel
argument as a termination device; the top-level entry point supplies more fuel
than any input of that length can consume.
-/

namespace Nbt

/-- Python `str.isspace` on the ASCII whitespace characters that can occur in
this grammar (space, tab, newline, carriage return, vertical tab, form feed). -/
def pyIsSpace (c : Char) : Bool :=
  c = ' ' || c = '\t' || c = '\n' || c = '\r' || c = '\x0b' || c = '\x0c'

/-- Python `str.strip`: drop whitespace from both ends. -/
def pyStrip (s : List Char) : List Char :=
  ((s.dropWhile pyIsSpace).reverse.dropWhile pyIsSpace).reverse

/-- Python `str.lstrip`. -/
def pyLStrip (s : List Char) : List Char :=
  s.dropWhile pyIsSpace

/-- ASCII digit test (Python `int()` / `float()` accept exactly these digits
for the inputs this program handles). -/
def isDig (c : Char) : Bool :=
  '0' ≤ c && c ≤ '9'

/-- Numeric value of an ASCII digit character. -/
def charDigit (c : Char) : Nat :=
  c.toNat - 48

/-- ASCII digit character of a value below ten. -/
def digitChar (d : Nat) : Char :=
  Char.ofNat (48 + d)

/-- Helper for `digitGroupVal`: consume the remaining characters of a digit
group after its first digit, maintaining the accumulated value.  A single
underscore is permitted between two digits, as in Python numeric literals. -/
def digitGroupGo (acc : Nat) : List Char → Option Nat
  | [] => some acc
  | c :: rest =>
    if isDig c then digitGroupGo (10 * acc + charDigit c) rest
    else if c = '_' then
      match rest with
      | [] => none
      | d :: rest2 =>
        if isDig d then digitGroupGo (10 * acc + charDigit d) rest2 else none
    else none

/-- Value of a Python digit group: nonempty, starts and ends with a digit,
single underscores allowed between digits. -/
def digitGroupVal : List Char → Option Nat
  | [] => none
  | c :: rest => if isDig c then digitGroupGo (charDigit c) rest else none

/-- Python `int(s)`: optional surrounding whitespace, optional sign, then a
digit group (underscores between digits allowed). -/
def pyInt (s : List Char) : Option Int :=
  match pyStrip s with
  | [] => none
  | c :: r =>
    if c = '-' then
      match digitGroupVal r with
      | some n => some (-(n : Int))
      | none => none
    else if c = '+' then
      match digitGroupVal r with
      | some n => some ((n : Int))
      | none => none
    else
      match digitGroupVal (c :: r) with
      | some n => some ((n : Int))
      | none => none

/-- The value of a Python `float`: a finite rational (exact for every decimal
literal; agrees with the IEEE double whenever that decimal is exactly
representable), an infinity, or a NaN. -/
inductive PyFloat where
  | finite (q : ℚ)
  | infinite (neg : Bool)
  | nan
deriving DecidableEq

/-- Value and digit count of a possibly-empty digit group (used for the
integer and fraction parts of a float literal).  Returns `none` on a
malformed group, `some (value, digits)` otherwise; the empty group is
`some (0, 0)`. -/
def digitGroupValLen (l : List Char) : Option (Nat × Nat) :=
  match l with
  | [] => some (0, 0)
  | _ :: _ =>
    match digitGroupVal l with
    | none => none
    | some v => some (v, (l.filter isDig).length)

/-- Exponent suffix of a Python float literal: empty, or `e`/`E`, an optional
sign, and a nonempty digit group. -/
def pyFloatExp (l : List Char) : Option Int :=
  match l with
  | [] => some 0
  | c :: rest =>
    if c = 'e' || c = 'E' then
      match rest with
      | [] => none
      | d :: r =>
        if d = '-' then
          match digitGroupVal r with
          | some n => some (-(n : Int))
          | none => none
        else if d = '+' then
          match digitGroupVal r with
          | some n => some ((n : Int))
          | none => none
        else
          match digitGroupVal (d :: r) with
          | some n => some ((n : Int))
          | none => none
    else none

/-- The digits-and-dot part of a Python float literal, after the sign:
`intpart [. [fracpart]] [exp]` with at least one digit overall. -/
def pyFloatBody (l : List Char) : Option ℚ :=
  let ip := l.takeWhile (fun c => isDig c || c = '_')
  let r1 := l.dropWhile (fun c => isDig c || c = '_')
  match digitGroupValLen ip with
  | none => none
  | some (iv, ic) =>
    match r1 with
    | '.' :: r2 =>
      let fp := r2.takeWhile (fun c => isDig c || c = '_')
      let r3 := r2.dropWhile (fun c => isDig c || c = '_')
      match digitGroupValLen fp with
      | none => none
      | some (fv, fc) =>
        if ic + fc = 0 then none
        else
          match pyFloatExp r3 with
          | none => none
          | some e => some (((iv : ℚ) + (fv : ℚ) / (10 : ℚ) ^ fc) * (10 : ℚ) ^ e)
    | _ =>
      if ic = 0 then none
      else
        match pyFloatExp r1 with
        | none => none
        | some e => some ((iv : ℚ) * (10 : ℚ) ^ e)

/-- Python `float(s)`: optional whitespace and sign, then either a decimal
literal or a spelling of infinity or NaN (case-insensitive). -/
def pyFloatLit (s : List Char) : Option PyFloat :=
  let t := pyStrip s
  let signed : Bool × List Char :=
    match t with
    | [] => (false, [])
    | c :: r =>
      if c = '-' then (true, r)
      else if c = '+' then (false, r)
      else (false, c :: r)
  let neg := signed.1
  let body := signed.2
  let low := body.map Char.toLower
  if low = ['i', 'n', 'f'] || low = ['i', 'n', 'f', 'i', 'n', 'i', 't', 'y'] then
    some (.infinite neg)
  else if low = ['n', 'a', 'n'] then
    some .nan
  else
    match pyFloatBody body with
    | none => none
    | some q => some (.finite (if neg then -q else q))

/-- Little-endian decimal digits of a natural number, by a structural
countdown (proved equal to `Nat.digits 10` below). -/
def natDigitsGo : Nat → Nat → List Nat
  | 0, _ => []
  | _ + 1, 0 => []
  | fuel + 1, n + 1 => ((n + 1) % 10) :: natDigitsGo fuel ((n + 1) / 10)

/-- Little-endian decimal digits of a natural number. -/
def natDigits (n : Nat) : List Nat :=
  natDigitsGo n n

/-- Decimal character list of a natural number, most significant digit first. -/
def natStr (n : Nat) : List Char :=
  if n = 0 then ['0'] else ((natDigits n).map digitChar).reverse

/-- Python `str` of an `int`. -/
def intStr (v : Int) : List Char :=
  if v < 0 then '-' :: natStr v.natAbs else natStr v.toNat

/-- Fractional digits of a nonnegative rational below one, by decimal long
division with fuel.  Used only to render finite float values. -/
def fracDigits : Nat → ℚ → List Char
  | 0, _ => []
  | fuel + 1, q =>
    if q = 0 then []
    else
      let d : Int := (q * 10).floor
      digitChar d.toNat :: fracDigits fuel (q * 10 - (d : ℚ))

/-- Python `str` of a float value.  For finite values with a terminating
decimal expansion this matches Python exactly (Python prints at least one
fractional digit, e.g. `5.0`); it is not consulted anywhere else. -/
def floatStr : PyFloat → List Char
  | .infinite true => ['-', 'i', 'n', 'f']
  | .infinite false => ['i', 'n', 'f']
  | .nan => ['n', 'a', 'n']
  | .finite q =>
    let sign : List Char := if q < 0 then ['-'] else []
    let a : ℚ := |q|
    let ip : Int := a.floor
    let frac := fracDigits 64 (a - (ip : ℚ))
    sign ++ natStr ip.toNat ++ '.' :: (if frac = [] then ['0'] else frac)

/-- A scalar Python value as stored in a `__value__` slot or a list element:
`None`, an `int`, a `float`, or a `str`. -/
inductive PyVal where
  | vNone
  | vInt (n : Int)
  | vFloat (f : PyFloat)
  | vStr (s : String)
deriving DecidableEq

/-- Python `str` of a scalar value. -/
def pyValStr : PyVal → List Char
  | .vNone => ['N', 'o', 'n', 'e']
  | .vInt n => intStr n
  | .vFloat f => floatStr f
  | .vStr s => s.data

/-- The data shapes this program constructs and consumes: a tagged scalar
wrapper dict `(__type__, __value__)` with a scalar value, the same wrapper
holding a list of native values (typed arrays), a plain dict (compound), and
a plain list.  A plain dict whose keys include both `__type__` and
`__value__` would be indistinguishable from a wrapper in Python; such keys
are excluded from the round-trip class below. -/
inductive Node where
  | tagged (t : Nat) (v : PyVal)
  | taggedArr (t : Nat) (vs : List PyVal)
  | compound (es : List (String × Node))
  | pylist (xs : List Node)

/-- `NBT_TYPE_MAP`: type ids to names, used by the source only to render the
array-mismatch diagnostic. -/
def NBT_TYPE_MAP (t : Nat) : Option String :=
  if t = 0 then some "TAG_End" else if t = 1 then some "TAG_Byte"
  else if t = 2 then some "TAG_Short" else if t = 3 then some "TAG_Int"
  else if t = 4 then some "TAG_Long" else if t = 5 then some "TAG_Float"
  else if t = 6 then some "TAG_Double" else if t = 7 then some "TAG_Byte_Array"
  else if t = 8 then some "TAG_String" else if t = 9 then some "TAG_List"
  else if t = 10 then some "TAG_Compound" else if t = 11 then some "TAG_Int_Array"
  else if t = 12 then some "TAG_Long_Array" else none

/-- `TYPE_SUFFIX_MAP`: numeric literal suffix to type id (both cases appear
in the source table; lookups happen on the lowered character). -/
def TYPE_SUFFIX_MAP (c : Char) : Option Nat :=
  if c = 'b' || c = 'B' then some 1
  else if c = 's' || c = 'S' then some 2
  else if c = 'i' || c = 'I' then some 3
  else if c = 'l' || c = 'L' then some 4
  else if c = 'f' || c = 'F' then some 5
  else if c = 'd' || c = 'D' then some 6
  else none

/-- `_parse_simple_value`: infer a scalar value and its type id from literal
text.  Rule 1: a recognized suffix, with a float or int parse of the rest
depending on the presence of a dot or exponent marker; rule 2: a plain int,
then a plain float; rule 3: the text itself as a string. -/
def _parse_simple_value (value_part : List Char) : PyVal × Nat :=
  if value_part = [] then (.vNone, 0)
  else
    let plain : PyVal × Nat :=
      match pyInt value_part with
      | some n => (.vInt n, 3)
      | none =>
        match pyFloatLit value_part with
        | some f => (.vFloat f, 5)
        | none => (.vStr (String.mk value_part), 8)
    if 1 < value_part.length then
      match TYPE_SUFFIX_MAP ((value_part.getLastD ' ').toLower) with
      | some type_id =>
        let val_str := value_part.dropLast
        if val_str.any (fun c => c = '.' || c.toLower = 'e') then
          match pyFloatLit val_str with
          | some f => (.vFloat f, type_id)
          | none => plain
        else
          match pyInt val_str with
          | some n => (.vInt n, type_id)
          | none => plain
      | none => plain
    else plain

/-- One structured error per `raise` site of the source. -/
inductive PErr where
  | unexpectedEnd (pos : Nat)
  | unterminatedString (pos : Nat)
  | invalidToken (pos : Nat)
  | missingKeyColon (pos : Nat)
  | missingSeparatorCompound (pos : Nat)
  | unterminatedCompound
  | missingSeparatorList (pos : Nat)
  | unterminatedList
  | unknownArrayHead (pos : Nat)
  | invalidArrayElement (pos : Nat)
  | arrayTypeMismatch (pos expected found : Nat)
  | missingSeparatorArray (pos : Nat)
  | unterminatedArray
  | invalidTopLevel
  | outOfFuel
deriving DecidableEq

/-- Structural countdown behind `_skip_whitespace` (the countdown never
runs out before the cursor passes the end of the string). -/
def skip_whitespace_go (s : List Char) : Nat → Nat → Nat
  | 0, i => i
  | n + 1, i =>
    if i < s.length ∧ pyIsSpace (s.getD i ' ') then skip_whitespace_go s n (i + 1) else i

/-- `_skip_whitespace`. -/
def skip_whitespace (s : List Char) (i : Nat) : Nat :=
  skip_whitespace_go s (s.length - i) i

/-- The character Python reads at `s[i-1]`: for `i = 0` the negative index
wraps around to the last character. -/
def getPrev (s : List Char) (i : Nat) : Char :=
  if i = 0 then s.getLastD ' ' else s.getD (i - 1) ' '

/-- The scan for the end of an unquoted simple value: stops at a comma, a
closing brace or bracket, or a colon not preceded by a backslash. -/
def simple_scan_go (s : List Char) : Nat → Nat → Nat
  | 0, i => i
  | n + 1, i =>
    if i < s.length then
      let c := s.getD i ' '
      if c = ',' ∨ c = '\x7d' ∨ c = ']' then i
      else if c = ':' ∧ getPrev s i ≠ '\\' then i
      else simple_scan_go s n (i + 1)
    else i

def simple_scan (s : List Char) (i : Nat) : Nat :=
  simple_scan_go s (s.length - i) i

/-- The compound key scan: advance to the first unescaped colon, tracking a
backslash-escape flag. -/
def key_scan_go (s : List Char) : Nat → Nat → Bool → Nat
  | 0, key_end, _ => key_end
  | n + 1, key_end, escaped =>
    if key_end < s.length then
      let c := s.getD key_end ' '
      if escaped then key_scan_go s n (key_end + 1) false
      else if c = '\\' then key_scan_go s n (key_end + 1) true
      else if c = ':' then key_end
      else key_scan_go s n (key_end + 1) false
    else key_end

def key_scan (s : List Char) (key_end : Nat) (escaped : Bool) : Nat :=
  key_scan_go s (s.length - key_end) key_end escaped

/-- Escape translation inside a single-quoted string; unrecognized escapes
pass the escaped character through. -/
def escChar (e : Char) : Char :=
  if e = 'n' then '\n' else if e = 't' then '\t' else if e = 'r' then '\r'
  else if e = '\x27' then '\x27' else if e = '"' then '"' else e

/-- The single-quoted string scan: collect unescaped content until the
closing quote; `none` when the input ends first.  A trailing lone backslash
is kept literally, as in the source. -/
def quoted_scan_go (s : List Char) : Nat → Nat → List Char → Option (List Char × Nat)
  | 0, _, _ => none
  | n + 1, j, acc =>
    if j < s.length then
      let c := s.getD j ' '
      if c = '\\' then
        if j + 1 < s.length then
          quoted_scan_go s n (j + 2) (acc ++ [escChar (s.getD (j + 1) ' ')])
        else
          quoted_scan_go s n (j + 1) (acc ++ [c])
      else if c = '\x27' then some (acc, j + 1)
      else quoted_scan_go s n (j + 1) (acc ++ [c])
    else none

def quoted_scan (s : List Char) (j : Nat) (acc : List Char) :
    Option (List Char × Nat) :=
  quoted_scan_go s (s.length + 1 - j) j acc

/-- The scan for the end of a typed-array element: stops at a comma or a
closing bracket only. -/
def array_scan_go (s : List Char) : Nat → Nat → Nat
  | 0, i => i
  | n + 1, i =>
    if i < s.length then
      if s.getD i ' ' = ',' ∨ s.getD i ' ' = ']' then i else array_scan_go s n (i + 1)
    else i

def array_scan (s : List Char) (i : Nat) : Nat :=
  array_scan_go s (s.length - i) i

/-- Python `str.replace` for a two-character pattern, scanning left to right
without overlap. -/
def pyReplace2 (a b : Char) (sub : List Char) : List Char → List Char
  | [] => []
  | [c] => [c]
  | c :: d :: rest =>
    if c = a ∧ d = b then sub ++ pyReplace2 a b sub rest
    else c :: pyReplace2 a b sub (d :: rest)

/-- The chained `.replace` calls that unescape a compound key, applied in
source order (`\:` first, `\\` last). -/
def key_unescape (k : List Char) : List Char :=
  pyReplace2 '\\' '\\' ['\\']
    (pyReplace2 '\\' '"' ['"']
      (pyReplace2 '\\' '\x27' ['\x27']
        (pyReplace2 '\\' ']' [']']
          (pyReplace2 '\\' '[' ['[']
            (pyReplace2 '\\' '\x7d' ['\x7d']
              (pyReplace2 '\\' '\x7b' ['\x7b']
                (pyReplace2 '\\' ':' [':'] k)))))))

/-- Python dict assignment `d[k] = v` on an ordered dictionary: overwrite in
place when the key exists, append otherwise. -/
def dictInsert (d : List (String × Node)) (k : String) (v : Node) :
    List (String × Node) :=
  if d.any (fun p => p.1 = k) then
    d.map (fun p => if p.1 = k then (k, v) else p)
  else d ++ [(k, v)]

/-- Python dict lookup. -/
def dictLookup (d : List (String × Node)) (k : String) : Option Node :=
  match d with
  | [] => none
  | p :: rest => if p.1 = k then some p.2 else dictLookup rest k

mutual

/-- `_parse_value`: dispatch on the first non-whitespace character.  The fuel
argument is a termination device only; the top-level entry point supplies
more fuel than the inputs considered in the theorems below can consume. -/
def _parse_value (fuel0 : Nat) (s : List Char) (start_index : Nat) :
    Except PErr (Node × Nat) :=
  match fuel0, s, start_index with
  | 0, _, _ => .error .outOfFuel
  | fuel + 1, s, start_index =>
    let i := skip_whitespace s start_index
    if i ≥ s.length then .error (.unexpectedEnd start_index)
    else
      let c := s.getD i ' '
      if c = '\x7b' then
        match _parse_compound fuel s (i + 1) with
        | .ok (es, ni) => .ok (.compound es, ni)
        | .error e => .error e
      else if c = '[' then
        let peek := pyLStrip (s.drop (i + 1))
        if ['B', ';'].isPrefixOf peek ∨ ['I', ';'].isPrefixOf peek ∨
            ['L', ';'].isPrefixOf peek then
          _parse_array fuel s (i + 1)
        else
          match _parse_list fuel s (i + 1) with
          | .ok (xs, ni) => .ok (.pylist xs, ni)
          | .error e => .error e
      else if c = '\x27' then
        match quoted_scan s (i + 1) [] with
        | some r => .ok (.tagged 8 (.vStr (String.mk r.1)), r.2)
        | none => .error (.unterminatedString i)
      else
        let end_idx := simple_scan s i
        let value_part := pyStrip ((s.drop i).take (end_idx - i))
        if value_part = [] then .error (.invalidToken i)
        else
          let r := _parse_simple_value value_part
          .ok (.tagged r.2 r.1, end_idx)
termination_by structural fuel0

/-- `_parse_compound`: treat an immediate `}` — or exhausted input — as an
empty compound, otherwise run the entry loop. -/
def _parse_compound (fuel0 : Nat) (s : List Char) (start_index : Nat) :
    Except PErr (List (String × Node) × Nat) :=
  match fuel0, s, start_index with
  | 0, _, _ => .error .outOfFuel
  | fuel + 1, s, start_index =>
    let i := skip_whitespace s start_index
    if i ≥ s.length ∨ s.getD i ' ' = '\x7d' then .ok ([], i + 1)
    else _parse_compound_loop fuel s i []
termination_by structural fuel0

/-- The entry loop of `_parse_compound`. -/
def _parse_compound_loop (fuel0 : Nat) (s : List Char) (i0 : Nat)
    (acc0 : List (String × Node)) : Except PErr (List (String × Node) × Nat) :=
  match fuel0, s, i0, acc0 with
  | 0, _, _, _ => .error .outOfFuel
  | fuel + 1, s, i, acc =>
    if i < s.length then
      let key_end := key_scan s i false
      if key_end ≥ s.length ∨ s.getD key_end ' ' ≠ ':' then
        .error (.missingKeyColon i)
      else
        let key := key_unescape (pyStrip ((s.drop i).take (key_end - i)))
        match _parse_value fuel s (key_end + 1) with
        | .error e => .error e
        | .ok (value, next_i) =>
          let acc2 := dictInsert acc (String.mk key) value
          let i2 := skip_whitespace s next_i
          if i2 < s.length ∧ s.getD i2 ' ' = '\x7d' then .ok (acc2, i2 + 1)
          else if i2 < s.length ∧ s.getD i2 ' ' = ',' then
            _parse_compound_loop fuel s (i2 + 1) acc2
          else .error (.missingSeparatorCompound i2)
    else .error .unterminatedCompound
termination_by structural fuel0

/-- `_parse_list`: treat an immediate `]` — or exhausted input — as an empty
list, otherwise run the element loop. -/
def _parse_list (fuel0 : Nat) (s : List Char) (start_index : Nat) :
    Except PErr (List Node × Nat) :=
  match fuel0, s, start_index with
  | 0, _, _ => .error .outOfFuel
  | fuel + 1, s, start_index =>
    let i := skip_whitespace s start_index
    if i ≥ s.length ∨ s.getD i ' ' = ']' then .ok ([], i + 1)
    else _parse_list_loop fuel s i []
termination_by structural fuel0

/-- The element loop of `_parse_list`. -/
def _parse_list_loop (fuel0 : Nat) (s : List Char) (i0 : Nat) (acc0 : List Node) :
    Except PErr (List Node × Nat) :=
  match fuel0, s, i0, acc0 with
  | 0, _, _, _ => .error .outOfFuel
  | fuel + 1, s, i, acc =>
    if i < s.length then
      match _parse_value fuel s i with
      | .error e => .error e
      | .ok (value, next_i) =>
        let acc2 := acc ++ [value]
        let i2 := skip_whitespace s next_i
        if i2 < s.length ∧ s.getD i2 ' ' = ']' then .ok (acc2, i2 + 1)
        else if i2 < s.length ∧ s.getD i2 ' ' = ',' then
          _parse_list_loop fuel s (i2 + 1) acc2
        else .error (.missingSeparatorList i2)
    else .error .unterminatedList
termination_by structural fuel0

/-- `_parse_array`: read the two-character element-type marker, treat an
immediate `]` — or exhausted input — as an empty array, otherwise run the
element loop. -/
def _parse_array (fuel0 : Nat) (s : List Char) (start_index : Nat) :
    Except PErr (Node × Nat) :=
  match fuel0, s, start_index with
  | 0, _, _ => .error .outOfFuel
  | fuel + 1, s, start_index =>
    let i := skip_whitespace s start_index
    let pre := (s.drop i).take 2
    let tid : Option Nat :=
      if pre = ['B', ';'] then some 7
      else if pre = ['I', ';'] then some 11
      else if pre = ['L', ';'] then some 12
      else none
    match tid with
    | none => .error (.unknownArrayHead i)
    | some array_type_id =>
      let i2 := skip_whitespace s (i + 2)
      if i2 ≥ s.length ∨ s.getD i2 ' ' = ']' then
        .ok (.taggedArr array_type_id [], i2 + 1)
      else _parse_array_loop fuel s i2 array_type_id []
termination_by structural fuel0

/-- The element loop of `_parse_array`, with the homogeneity check. -/
def _parse_array_loop (fuel0 : Nat) (s : List Char) (i0 : Nat) (atid0 : Nat)
    (acc0 : List PyVal) : Except PErr (Node × Nat) :=
  match fuel0, s, i0, atid0, acc0 with
  | 0, _, _, _, _ => .error .outOfFuel
  | fuel + 1, s, i, array_type_id, acc =>
    if i < s.length then
      let end_idx := array_scan s i
      let value_part := pyStrip ((s.drop i).take (end_idx - i))
      if value_part = [] then .error (.invalidArrayElement i)
      else
        let r := _parse_simple_value value_part
        if (r.2 ≠ 1 ∧ array_type_id = 7) ∨ (r.2 ≠ 3 ∧ array_type_id = 11) ∨
            (r.2 ≠ 4 ∧ array_type_id = 12) then
          .error (.arrayTypeMismatch i array_type_id r.2)
        else
          let acc2 := acc ++ [r.1]
          let i2 := skip_whitespace s end_idx
          if i2 < s.length ∧ s.getD i2 ' ' = ']' then
            .ok (.taggedArr array_type_id acc2, i2 + 1)
          else if i2 < s.length ∧ s.getD i2 ' ' = ',' then
            _parse_array_loop fuel s (i2 + 1) array_type_id acc2
          else .error (.missingSeparatorArray i2)
    else .error .unterminatedArray
termination_by structural fuel0

end

/-- A character of the regex class `[a-zA-Z0-9_:]` used by the bare
top-level key pattern (spelled over code points: upper, lower, digit,
underscore, colon). -/
def isKeyChar (c : Char) : Bool :=
  (65 ≤ c.toNat && c.toNat ≤ 90) || (97 ≤ c.toNat && c.toNat ≤ 122) ||
    (48 ≤ c.toNat && c.toNat ≤ 57) || c = '_' || c = ':'

/-- End index of the maximal run of key-class characters from `i`. -/
def class_run_go (s : List Char) : Nat → Nat → Nat
  | 0, i => i
  | n + 1, i =>
    if i < s.length ∧ isKeyChar (s.getD i ' ') then class_run_go s n (i + 1) else i

def class_run (s : List Char) (i : Nat) : Nat :=
  class_run_go s (s.length - i) i

/-- Largest index `j < m` with `s[j] = ':'`, if any. -/
def lastColonBefore (s : List Char) (m : Nat) : Option Nat :=
  match m with
  | 0 => none
  | j + 1 => if s.getD j ' ' = ':' then some j else lastColonBefore s j

/-- The greedy `re.match` for a bare top-level key `([a-zA-Z0-9_:]+)\s*:`:
the group is the longest run prefix of key characters that is followed,
after optional whitespace, by a colon; on failure the group backtracks to
the last colon inside the run.  Returns the stripped group text and the
match end (just past the separating colon). -/
def topKeyMatch (s : List Char) : Option (List Char × Nat) :=
  let m := class_run s 0
  if m = 0 then none
  else
    let j := skip_whitespace s m
    if j < s.length ∧ s.getD j ' ' = ':' then some (pyStrip (s.take m), j + 1)
    else
      match lastColonBefore s m with
      | some k => if k = 0 then none else some (pyStrip (s.take k), k + 1)
      | none => none

/-- Fuel supplied to the recursive parser by the entry point: strictly more
than the recursion can consume on the inputs considered in this file. -/
def parseFuel (l : List Char) : Nat :=
  2 * l.length + 2

/-- `parse_readable_nbt` on a character list: strip, accept the empty input
as an empty document, try the bare `key:value` form, otherwise require a
brace-wrapped compound. -/
def parseChars (l : List Char) : Except PErr (List (String × Node)) :=
  let t := pyStrip l
  if t = [] then .ok []
  else
    match topKeyMatch t with
    | some (k, i) =>
      match _parse_value (parseFuel t) t i with
      | .ok r => .ok [(String.mk k, r.1)]
      | .error e => .error e
    | none =>
      if t.getD 0 ' ' = '\x7b' ∧ t.getLastD ' ' = '\x7d' then
        match _parse_compound (parseFuel t) t 1 with
        | .ok r => .ok r.1
        | .error e => .error e
      else .error .invalidTopLevel

/-- `parse_readable_nbt` on a Python string. -/
def parse_readable_nbt (s : String) : Except PErr (List (String × Node)) :=
  parseChars s.data

/-- The character class of the serializer's quoting test
`re.search(r"[\s,:{}'\[\]]", ...)`. -/
def searchSpecial (c : Char) : Bool :=
  pyIsSpace c || c = ',' || c = ':' || c = '\x7b' || c = '\x7d' ||
    c = '\x27' || c = '[' || c = ']'

/-- Python `str.replace` for a single-character pattern. -/
def rep1 (pat : Char) (sub : List Char) (s : List Char) : List Char :=
  s.flatMap (fun c => if c = pat then sub else [c])

/-- The serializer's escaping of a string value, with the source's pass
order (`\n`, `\t`, `\\`, `'`): the backslash pass runs after the newline and
tab passes and so doubles the backslashes those passes introduced. -/
def str_escape (s : List Char) : List Char :=
  rep1 '\x27' ['\\', '\x27']
    (rep1 '\\' ['\\', '\\']
      (rep1 '\t' ['\\', 't']
        (rep1 '\n' ['\\', 'n'] s)))

/-- The serializer's escaping of a compound key, in source order (`\\`
first, then quote, colon, braces, brackets). -/
def key_escape (k : List Char) : List Char :=
  rep1 ']' ['\\', ']']
    (rep1 '[' ['\\', '[']
      (rep1 '\x7d' ['\\', '\x7d']
        (rep1 '\x7b' ['\\', '\x7b']
          (rep1 ':' ['\\', ':']
            (rep1 '\x27' ['\\', '\x27']
              (rep1 '\\' ['\\', '\\'] k))))))

/-- The reverse suffix lookup
`next((s for s, t_id in TYPE_SUFFIX_MAP.items() if t_id == data_type), '')`,
lowered: the dict iterates in insertion order, so the lowercase letter wins;
ids without a suffix yield the empty string. -/
def suffix_for (t : Nat) : List Char :=
  if t = 1 then ['b'] else if t = 2 then ['s'] else if t = 3 then ['i']
  else if t = 4 then ['l'] else if t = 5 then ['f'] else if t = 6 then ['d']
  else []

/-- `SPECIAL_KEYS`: readable short forms for two well-known keys, selected
by an inner mode string. -/
def SPECIAL_KEYS (key : String) : Option (List (String × List Char)) :=
  if key = "minecraft:item_lock" then
    some [("lock_in_inventory", ['1', 'b']), ("lock_in_slot", ['2', 'b'])]
  else if key = "minecraft:keep_on_death" then some [("", ['1', 'b'])]
  else none

/-- The `mode_value` computed by the special-key check, when it is a string.
`none` covers every non-string outcome: a hashable non-string value is
simply absent from the short-form table, and an unhashable `dict`/`list`
value would raise `TypeError` in Python — neither arises for any document
whose serialization the theorems below touch. -/
def special_mode_string (value : Node) : Option String :=
  match value with
  | .pylist _ => none
  | .tagged _ _ => some ""
  | .taggedArr _ _ => some ""
  | .compound es =>
    match dictLookup es "mode" with
    | none => some ""
    | some (.tagged _ pv) =>
      match pv with
      | .vStr s => some s
      | _ => none
    | some (.taggedArr _ _) => none
    | some (.compound es2) =>
      match dictLookup es2 "__value__" with
      | none => some ""
      | some _ => none
    | some (.pylist _) => none

/-- `",".join`. -/
def joinComma : List (List Char) → List Char
  | [] => []
  | [x] => x
  | x :: y :: rest => x ++ ',' :: joinComma (y :: rest)

/-- `", ".join`, as used by Python `str` of a list. -/
def joinCommaSpace : List (List Char) → List Char
  | [] => []
  | [x] => x
  | x :: y :: rest => x ++ ',' :: ' ' :: joinCommaSpace (y :: rest)

/-- Python `repr` of a scalar value as it appears inside `str` of a list.
Reached only when a wrapper carries a list under a non-array type id, which
no value built by this program does; `repr`-level escaping inside the
quotes is therefore irrelevant here. -/
def pyValRepr : PyVal → List Char
  | .vStr s => '\x27' :: s.data ++ ['\x27']
  | v => pyValStr v

/-- Python `str` of a plain list of scalar values. -/
def pyListRepr (vs : List PyVal) : List Char :=
  '[' :: joinCommaSpace (vs.map pyValRepr) ++ [']']

mutual

/-- The `_to_string` walk of `api_to_readable`.  Wrapper dicts dispatch on
the type id (string quoting, array pass-through of the native value list,
numeric suffixing); plain dicts render their entries with special-key
folding; plain lists render comma-joined elements.  Where the source
recurses into raw native values (array contents), the leaf branch
`str(data)` is applied directly. -/
def _to_string : Node → List Char
  | .tagged t v =>
    if t = 8 then
      let txt := pyValStr v
      if txt.any searchSpecial then '\x27' :: str_escape txt ++ ['\x27'] else txt
    else if t = 7 ∨ t = 11 ∨ t = 12 then pyValStr v
    else pyValStr v ++ suffix_for t
  | .taggedArr t vs =>
    if t = 8 then
      let txt := pyListRepr vs
      if txt.any searchSpecial then '\x27' :: str_escape txt ++ ['\x27'] else txt
    else if t = 7 ∨ t = 11 ∨ t = 12 then '[' :: joinComma (vs.map pyValStr) ++ [']']
    else pyListRepr vs ++ suffix_for t
  | .compound es => '\x7b' :: joinComma (entry_strings es) ++ ['\x7d']
  | .pylist xs => '[' :: joinComma (to_string_list xs) ++ [']']

/-- `_to_string` mapped over list elements. -/
def to_string_list : List Node → List (List Char)
  | [] => []
  | x :: rest => _to_string x :: to_string_list rest

/-- The `parts` of the compound branch: each entry is either a special-key
short form (key left unescaped) or `escapedKey:value`. -/
def entry_strings : List (String × Node) → List (List Char)
  | [] => []
  | (key, value) :: rest =>
    (match SPECIAL_KEYS key with
     | some tbl =>
       match special_mode_string value with
       | some m =>
         match tbl.lookup m with
         | some short => key.data ++ ':' :: short
         | none => key_escape key.data ++ ':' :: _to_string value
       | none => key_escape key.data ++ ':' :: _to_string value
     | none => key_escape key.data ++ ':' :: _to_string value) :: entry_strings rest

end

/-- `api_to_readable`: a single-entry dict serializes as a bare `key:value`
pair (key unescaped); anything else — wrappers have two entries — goes
through `_to_string`. -/
def api_to_readable (api_nbt : Node) : List Char :=
  match api_nbt with
  | .compound [(key, value)] => key.data ++ ':' :: _to_string value
  | n => _to_string n

/-- Characters allowed in round-trip keys and string scalars: ASCII
alphanumeric or underscore (spelled over code points). -/
def safeTextChar (c : Char) : Bool :=
  (65 ≤ c.toNat && c.toNat ≤ 90) || (97 ≤ c.toNat && c.toNat ≤ 122) ||
    (48 ≤ c.toNat && c.toNat ≤ 57) || c = '_'

/-- Keys in the round-trip class: nonempty, over the safe alphabet, and not
a wrapper marker (a Python dict containing both `__type__` and `__value__`
keys would be read back as a tagged wrapper by the serializer). -/
def safeKey (k : String) : Bool :=
  !k.data.isEmpty && k.data.all safeTextChar && k != "__type__" && k != "__value__"

/-- Key distinctness for a compound (a Python dict cannot hold duplicate
keys in the first place). -/
def nodupKeys : List (String × Node) → Bool
  | [] => true
  | (k, _) :: r => !(r.any (fun p => p.1 == k)) && nodupKeys r

mutual

/-- The round-trip class: integer-valued scalars under any suffixed numeric
tag, string scalars over the safe alphabet whose text re-classifies as a
string, compounds with distinct safe keys, and plain lists.  Typed arrays
are excluded (their serialization drops the `B;`-style marker), as are
float-valued scalars and strings needing quotes or escapes. -/
def SafeNode : Node → Bool
  | .tagged t v =>
    match v with
    | .vInt _ => t == 1 || t == 2 || t == 3 || t == 4 || t == 5 || t == 6
    | .vStr s =>
      t == 8 && !s.data.isEmpty && s.data.all safeTextChar &&
        _parse_simple_value s.data == (.vStr s, 8)
    | _ => false
  | .taggedArr _ _ => false
  | .compound es => nodupKeys es && SafeEntries es
  | .pylist xs => SafeList xs

/-- `SafeNode` over compound entries. -/
def SafeEntries : List (String × Node) → Bool
  | [] => true
  | (k, v) :: r => safeKey k && SafeNode v && SafeEntries r

/-- `SafeNode` over list elements. -/
def SafeList : List Node → Bool
  | [] => true
  | v :: r => SafeNode v && SafeList r

end

mutual

/-- Fuel consumed by the recursive parser on a node of the round-trip class
(each function entry costs one unit; loops cost one unit per element). -/
def needV : Node → Nat
  | .tagged _ _ => 1
  | .taggedArr _ _ => 1
  | .compound es => 2 + needE es
  | .pylist xs => 2 + needL xs

/-- Fuel consumed by the compound entry loop. -/
def needE : List (String × Node) → Nat
  | [] => 0
  | (_, v) :: r => 1 + needV v + needE r

/-- Fuel consumed by the list element loop. -/
def needL : List Node → Nat
  | [] => 0
  | v :: r => 1 + needV v + needL r

end

/-- The shapes of input that may legally follow a serialized value: nothing,
or a separator, or a closer. -/
def stopRest (rest : List Char) : Prop :=
  rest = [] ∨ ∃ r, rest = ',' :: r ∨ rest = '\x7d' :: r ∨ rest = ']' :: r

/-!
## Theorems

First the claims whose content is settled by direct evaluation of the
embedded functions, then the supporting lemmas and the round-trip theorem.
-/

/-- Inserting under a key and looking that key up yields the inserted value,
whatever the dictionary held before (helper for claim C9). -/
theorem dictLookup_dictInsert (d : List (String × Node)) (k : String) (v : Node) :
    dictLookup (dictInsert d k v) k = some v := by
  induction d with
  | nil => simp [dictInsert, dictLookup]
  | cons p rest ih =>
    by_cases hpk : p.1 = k
    · simp [dictInsert, dictLookup, hpk]
    · have hany : (p :: rest).any (fun q => q.1 = k) = rest.any (fun q => q.1 = k) := by
        simp [List.any_cons, hpk]
      by_cases hr : rest.any (fun q => q.1 = k) = true
      · have ih2 : dictLookup (rest.map fun q => if q.1 = k then (k, v) else q) k = some v := by
          simpa [dictInsert, hr] using ih
        simp [dictInsert, hany, hr, dictLookup, hpk, ih2]
      · have ih2 : dictLookup (rest ++ [(k, v)]) k = some v := by
          simpa [dictInsert, hr] using ih
        simp [dictInsert, hany, hr, dictLookup, hpk, ih2]

/-- C5: `[B;1b,2b,3b]` parses to a Byte typed array holding the native
values 1, 2, 3; `[B;1b,2i]` fails with an array-type-mismatch error carrying
the position of `2i` (index 8 of `x:[B;1b,2i]`), the array's declared type
id (7, `TAG_Byte_Array`) and the found tag (3, `TAG_Int`); and in general,
whenever the element loop meets an element whose inferred tag violates the
declared element type, it raises exactly that mismatch error. -/
theorem C5_array_homogeneity :
    parse_readable_nbt "x:[B;1b,2b,3b]" =
      .ok [("x", .taggedArr 7 [.vInt 1, .vInt 2, .vInt 3])] ∧
    parse_readable_nbt "x:[B;1b,2i]" = .error (.arrayTypeMismatch 8 7 3) ∧
    ∀ (fuel : Nat) (s : List Char) (i d : Nat) (acc : List PyVal),
      i < s.length →
      pyStrip ((s.drop i).take (array_scan s i - i)) ≠ [] →
      (((_parse_simple_value (pyStrip ((s.drop i).take (array_scan s i - i)))).2 ≠ 1 ∧ d = 7) ∨
       ((_parse_simple_value (pyStrip ((s.drop i).take (array_scan s i - i)))).2 ≠ 3 ∧ d = 11) ∨
       ((_parse_simple_value (pyStrip ((s.drop i).take (array_scan s i - i)))).2 ≠ 4 ∧ d = 12)) →
      _parse_array_loop (fuel + 1) s i d acc =
        .error (.arrayTypeMismatch i d
          (_parse_simple_value (pyStrip ((s.drop i).take (array_scan s i - i)))).2) := by
  refine ⟨rfl, rfl, ?_⟩
  intro fuel s i d acc h1 h2 h3
  rw [_parse_array_loop]
  simp only [h1, if_true, h2, if_neg, if_pos, h3]
  simp [h2, h3]

/-- C5 witness: the general mismatch clause applied to the element `2i` of
`[B;1b,2i]` at its own position. -/
theorem C5_array_homogeneity_witness :
    _parse_array_loop 1 "2i]".data 0 7 [.vInt 1] = .error (.arrayTypeMismatch 0 7 3) :=
  C5_array_homogeneity.2.2 0 "2i]".data 0 7 [.vInt 1] (by decide) (by decide)
    (by decide)

/-- C6: suffix disambiguation of scalar literals — `5b` is (Byte, 5), `5` is
(Int, 5), `5.0` is (Float, 5.0), and `5x`, whose trailing `x` is not a
recognized suffix, falls through to (String, "5x"). -/
theorem C6_suffix_disambiguation :
    _parse_simple_value "5b".data = (.vInt 5, 1) ∧
    _parse_simple_value "5".data = (.vInt 5, 3) ∧
    _parse_simple_value "5.0".data = (.vFloat (.finite 5), 5) ∧
    _parse_simple_value "5x".data = (.vStr "5x", 8) := by
  refine ⟨rfl, rfl, ?_, rfl⟩
  have hq : _parse_simple_value "5.0".data =
      (.vFloat (.finite ((((5 : ℕ) : ℚ) + ((0 : ℕ) : ℚ) / (10 : ℚ) ^ (1 : ℕ)) *
        (10 : ℚ) ^ ((0 : ℤ)))), 5) := rfl
  rw [hq]
  simp only [Prod.mk.injEq, PyVal.vFloat.injEq, PyFloat.finite.injEq, and_true]
  norm_num

/-- C7: the bare named form `Items:[1,2]` and the brace-wrapped form
`{Items:[1,2]}` parse to the same single-entry document. -/
theorem C7_top_level_equivalence :
    parse_readable_nbt "Items:[1,2]" =
      .ok [("Items", .pylist [.tagged 3 (.vInt 1), .tagged 3 (.vInt 2)])] ∧
    parse_readable_nbt "\x7bItems:[1,2]\x7d" =
      .ok [("Items", .pylist [.tagged 3 (.vInt 1), .tagged 3 (.vInt 2)])] :=
  ⟨rfl, rfl⟩

/-- C8: a string scalar is serialized quoted exactly when its text contains
whitespace or a reserved character — the general branch condition, plus the
two spec examples (`hello world` quoted, `hello` bare). -/
theorem C8_string_quoting :
    _to_string (.tagged 8 (.vStr "hello world")) = "\x27hello world\x27".data ∧
    _to_string (.tagged 8 (.vStr "hello")) = "hello".data ∧
    ∀ s : String, _to_string (.tagged 8 (.vStr s)) =
      (if s.data.any searchSpecial then '\x27' :: str_escape s.data ++ ['\x27']
       else s.data) :=
  ⟨rfl, rfl, fun _ => rfl⟩

/-- C9: duplicate keys in a compound parse without error and the last
occurrence wins, at the first occurrence's position — `{a:1,a:2}` gives a
single entry a ↦ Int 2, `{a:1,b:5,a:2}` keeps a before b — and in general a
dictionary insert followed by a lookup of the same key returns the new
value. -/
theorem C9_duplicate_keys :
    parse_readable_nbt "\x7ba:1,a:2\x7d" = .ok [("a", .tagged 3 (.vInt 2))] ∧
    parse_readable_nbt "\x7ba:1,b:5,a:2\x7d" =
      .ok [("a", .tagged 3 (.vInt 2)), ("b", .tagged 3 (.vInt 5))] ∧
    ∀ (d : List (String × Node)) (k : String) (v : Node),
      dictLookup (dictInsert d k v) k = some v :=
  ⟨rfl, rfl, dictLookup_dictInsert⟩

/-- C3 counterexample: a compound, list, or typed array opened right at the
end of the input is NOT a parse error — the parser returns the container
empty (`x:{` parses to x ↦ {}, likewise `x:[` and `x:[B;`), contradicting
the claim that such inputs always fail. -/
theorem C3_counterexample :
    parse_readable_nbt "x:\x7b" = .ok [("x", .compound [])] ∧
    parse_readable_nbt "x:[" = .ok [("x", .pylist [])] ∧
    parse_readable_nbt "x:[B;" = .ok [("x", .taggedArr 7 [])] :=
  ⟨rfl, rfl, rfl⟩

/-- C3 (amended): when a container's entry loop is still running and the
input is exhausted, parsing fails (the general loop-exhaustion clauses and
the concrete missing-separator/unterminated cases below); but a container
opener followed only by end of input is treated like an immediate closer and
yields the empty container (the general clauses on `skip_whitespace`
reaching the end). -/
theorem C3_unterminated_containers :
    (∀ (fuel : Nat) (s : List Char) (i : Nat), s.length ≤ skip_whitespace s i →
      _parse_compound (fuel + 1) s i = .ok ([], skip_whitespace s i + 1)) ∧
    (∀ (fuel : Nat) (s : List Char) (i : Nat), s.length ≤ skip_whitespace s i →
      _parse_list (fuel + 1) s i = .ok ([], skip_whitespace s i + 1)) ∧
    (∀ (fuel : Nat) (s : List Char) (i : Nat) (acc : List (String × Node)),
      s.length ≤ i → _parse_compound_loop (fuel + 1) s i acc = .error .unterminatedCompound) ∧
    (∀ (fuel : Nat) (s : List Char) (i : Nat) (acc : List Node),
      s.length ≤ i → _parse_list_loop (fuel + 1) s i acc = .error .unterminatedList) ∧
    (∀ (fuel : Nat) (s : List Char) (i d : Nat) (acc : List PyVal),
      s.length ≤ i → _parse_array_loop (fuel + 1) s i d acc = .error .unterminatedArray) ∧
    parse_readable_nbt "x:\x7bb:1" = .error (.missingSeparatorCompound 6) ∧
    parse_readable_nbt "x:\x7bb:1," = .error .unterminatedCompound ∧
    parse_readable_nbt "x:[1" = .error (.missingSeparatorList 4) ∧
    parse_readable_nbt "x:[1," = .error .unterminatedList ∧
    parse_readable_nbt "x:[B;1b" = .error (.missingSeparatorArray 7) ∧
    parse_readable_nbt "x:[B;1b," = .error .unterminatedArray := by
  refine ⟨?_, ?_, ?_, ?_, ?_, rfl, rfl, rfl, rfl, rfl, rfl⟩
  · intro fuel s i h
    rw [_parse_compound]
    simp [h]
  · intro fuel s i h
    rw [_parse_list]
    simp [h]
  · intro fuel s i acc h
    rw [_parse_compound_loop]
    simp [show ¬ i < s.length by omega]
  · intro fuel s i acc h
    rw [_parse_list_loop]
    simp [show ¬ i < s.length by omega]
  · intro fuel s i d acc h
    rw [_parse_array_loop]
    simp [show ¬ i < s.length by omega]

/-- C3 witness: the general clauses instantiated — an opener at the end of
`x:{` returns the empty compound, and an exhausted entry loop errors. -/
theorem C3_unterminated_containers_witness :
    _parse_compound 1 "x:\x7b".data 3 = .ok ([], 4) ∧
    _parse_compound_loop 1 "ab".data 5 [] = .error .unterminatedCompound :=
  ⟨C3_unterminated_containers.1 0 "x:\x7b".data 3 (by decide),
   C3_unterminated_containers.2.2.1 0 "ab".data 5 [] (by decide)⟩

/-- C2 counterexample: `[B;200b]` as a value parses successfully to a Byte
typed array holding 200 — no `NumericRangeError` exists anywhere in the
code — and at top level the same text fails only with the top-level-shape
error, never with a range error. -/
theorem C2_counterexample :
    _parse_value 12 "[B;200b]".data 0 = .ok (.taggedArr 7 [.vInt 200], 8) ∧
    parse_readable_nbt "x:[B;200b]" = .ok [("x", .taggedArr 7 [.vInt 200])] ∧
    parse_readable_nbt "[B;200b]" = .error .invalidTopLevel :=
  ⟨rfl, rfl, rfl⟩

/-- C4 counterexample: `[a:1]` does fail, but not with a named-tag-in-list
error (no such error kind exists in the code): at top level it fails the
top-level-shape check, and as a list (`x:[a:1]`) it fails with the
missing-separator error raised at the colon. -/
theorem C4_counterexample :
    parse_readable_nbt "[a:1]" = .error .invalidTopLevel ∧
    parse_readable_nbt "x:[a:1]" = .error (.missingSeparatorList 4) :=
  ⟨rfl, rfl⟩

/-- C1 counterexample: serialize-then-parse is not the identity.  A string
scalar `"5"` comes back as an Int; a Float-tagged NaN comes back as the
string `nanf`; a Byte typed array comes back as a plain list (its `B;`
marker is never emitted); a string containing a newline comes back with a
literal backslash-n (the escaping passes double the backslash they just
introduced); and a nested special key (`minecraft:item_lock`) is folded with
its colon unescaped, so the result does not re-parse at all. -/
theorem C1_counterexample :
    (parseChars (api_to_readable (.compound [("a", .tagged 8 (.vStr "5"))])) =
      .ok [("a", .tagged 3 (.vInt 5))] ∧
     Node.tagged 3 (.vInt 5) ≠ Node.tagged 8 (.vStr "5")) ∧
    (parseChars (api_to_readable (.compound [("a", .tagged 5 (.vFloat .nan))])) =
      .ok [("a", .tagged 8 (.vStr "nanf"))] ∧
     Node.tagged 8 (.vStr "nanf") ≠ Node.tagged 5 (.vFloat .nan)) ∧
    (parseChars (api_to_readable (.compound [("a", .taggedArr 7 [.vInt 1])])) =
      .ok [("a", .pylist [.tagged 3 (.vInt 1)])] ∧
     Node.pylist [.tagged 3 (.vInt 1)] ≠ Node.taggedArr 7 [.vInt 1]) ∧
    (parseChars (api_to_readable (.compound [("a", .tagged 8 (.vStr "x\ny"))])) =
      .ok [("a", .tagged 8 (.vStr "x\\ny"))] ∧
     Node.tagged 8 (.vStr "x\\ny") ≠ Node.tagged 8 (.vStr "x\ny")) ∧
    parseChars (api_to_readable (.compound [("x", .compound [("minecraft:item_lock",
      .compound [("mode", .tagged 8 (.vStr "lock_in_inventory"))])])])) =
      .error (.missingSeparatorCompound 22) := by
  refine ⟨⟨rfl, ?_⟩, ⟨rfl, ?_⟩, ⟨rfl, ?_⟩, ⟨rfl, ?_⟩, rfl⟩ <;> simp

/-!
### Integer printing and re-parsing

`str(int)` followed by Python `int()` is the identity; this backs both the
no-range-check theorem (C2) and the round-trip theorem (C1).
-/

/-- The structural digit list agrees with `Nat.digits 10`. -/
theorem natDigitsGo_eq (fuel n : Nat) (h : n ≤ fuel) :
    natDigitsGo fuel n = Nat.digits 10 n := by
  induction fuel generalizing n with
  | zero =>
    have hn : n = 0 := by omega
    subst hn
    simp [natDigitsGo]
  | succ f ih =>
    match n with
    | 0 => simp [natDigitsGo]
    | m + 1 =>
      rw [natDigitsGo, Nat.digits_def' (by norm_num : 1 < 10) (Nat.succ_pos m)]
      congr 1
      have hdiv : (m + 1) / 10 < m + 1 := Nat.div_lt_self (Nat.succ_pos m) (by norm_num)
      exact ih _ (by omega)

/-- The structural digit list agrees with `Nat.digits 10`. -/
theorem natDigits_eq (n : Nat) : natDigits n = Nat.digits 10 n :=
  natDigitsGo_eq n n le_rfl

/-- Every character of `natStr` is the digit character of a digit. -/
theorem natStr_chars (n : Nat) : ∀ c ∈ natStr n, ∃ d, d < 10 ∧ c = digitChar d := by
  intro c hc
  rw [natStr] at hc
  by_cases h0 : n = 0
  · rw [if_pos h0] at hc
    simp only [List.mem_singleton] at hc
    exact ⟨0, by norm_num, by rw [hc]; rfl⟩
  · rw [if_neg h0, List.mem_reverse, List.mem_map] at hc
    obtain ⟨d, hd, rfl⟩ := hc
    exact ⟨d, Nat.digits_lt_base (by norm_num : 1 < 10) (by rwa [← natDigits_eq]), rfl⟩

/-- `natStr` is never empty. -/
theorem natStr_ne_nil (n : Nat) : natStr n ≠ [] := by
  rw [natStr]
  by_cases h0 : n = 0
  · simp [h0]
  · rw [if_neg h0]
    simp only [ne_eq, List.reverse_eq_nil_iff, List.map_eq_nil_iff]
    rw [natDigits_eq]
    exact Nat.digits_ne_nil_iff_ne_zero.mpr h0

/-- `intStr` is never empty. -/
theorem intStr_ne_nil (v : Int) : intStr v ≠ [] := by
  rw [intStr]
  by_cases hv : v < 0
  · simp [hv]
  · rw [if_neg hv]
    exact natStr_ne_nil _

/-- `digitGroupGo` on a pure digit run is the decimal fold. -/
theorem digitGroupGo_all_digits (ds : List Char) (acc : Nat) (h : ds.all isDig = true) :
    digitGroupGo acc ds = some (ds.foldl (fun a c => 10 * a + charDigit c) acc) := by
  induction ds generalizing acc with
  | nil => simp [digitGroupGo]
  | cons c cs ih =>
    simp only [List.all_cons, Bool.and_eq_true] at h
    have step : digitGroupGo acc (c :: cs) = digitGroupGo (10 * acc + charDigit c) cs := by
      rw [digitGroupGo.eq_def]
      simp [h.1]
    rw [step, ih _ h.2, List.foldl_cons]

/-- `digitGroupVal` on a nonempty pure digit run is the decimal fold. -/
theorem digitGroupVal_all_digits (ds : List Char) (hne : ds ≠ [])
    (h : ds.all isDig = true) :
    digitGroupVal ds = some (ds.foldl (fun a c => 10 * a + charDigit c) 0) := by
  match ds with
  | c :: cs =>
    simp only [List.all_cons, Bool.and_eq_true] at h
    simp only [digitGroupVal, if_pos h.1, digitGroupGo_all_digits _ _ h.2, List.foldl_cons]
    norm_num

/-- Folding the printed digits back, most significant first, recovers the
number (with the accumulator shifted in). -/
theorem foldl_digits_reverse (L : List Nat) (acc : Nat) (h : ∀ d ∈ L, d < 10) :
    ((L.map digitChar).reverse).foldl (fun a c => 10 * a + charDigit c) acc
      = acc * 10 ^ L.length + Nat.ofDigits 10 L := by
  have base : ∀ d, d < 10 → charDigit (digitChar d) = d := by decide
  induction L generalizing acc with
  | nil => simp [Nat.ofDigits]
  | cons d L ih =>
    rw [List.map_cons, List.reverse_cons, List.foldl_append]
    rw [ih _ (fun x hx => h x (by simp [hx]))]
    simp only [List.foldl_cons, List.foldl_nil, base d (h d (by simp))]
    rw [Nat.ofDigits_cons, List.length_cons, pow_succ]
    ring

/-- Parsing back the digit text of a natural number. -/
theorem digitGroupVal_natStr (n : Nat) : digitGroupVal (natStr n) = some n := by
  by_cases h0 : n = 0
  · subst h0
    decide
  · have base : ∀ d, d < 10 → isDig (digitChar d) = true := by decide
    have hall : (natStr n).all isDig = true := by
      rw [List.all_eq_true]
      intro c hc
      obtain ⟨d, hd, rfl⟩ := natStr_chars n c hc
      exact base d hd
    rw [digitGroupVal_all_digits _ (natStr_ne_nil n) hall, natStr, if_neg h0]
    have hdl : ∀ d ∈ natDigits n, d < 10 := fun d hd =>
      Nat.digits_lt_base (by norm_num) (by rwa [← natDigits_eq])
    rw [foldl_digits_reverse _ 0 hdl]
    simp [natDigits_eq, Nat.ofDigits_digits]

/-- The printed text of an integer contains only digits and a leading minus:
no whitespace, no dot, no exponent marker, and none of the parser's
terminator or escape characters. -/
theorem intStr_chars (v : Int) : ∀ c ∈ intStr v,
    pyIsSpace c = false ∧ c ≠ '.' ∧ c.toLower ≠ 'e' ∧ c ≠ ',' ∧ c ≠ '\x7d' ∧
      c ≠ ']' ∧ c ≠ ':' ∧ c ≠ '\\' ∧ c ≠ '\x7b' ∧ c ≠ '[' ∧ c ≠ '\x27' ∧
      c ≠ ';' ∧ searchSpecial c = false := by
  intro c hc
  rw [intStr] at hc
  have base : ∀ d, d < 10 →
      pyIsSpace (digitChar d) = false ∧ digitChar d ≠ '.' ∧
        (digitChar d).toLower ≠ 'e' ∧ digitChar d ≠ ',' ∧ digitChar d ≠ '\x7d' ∧
        digitChar d ≠ ']' ∧ digitChar d ≠ ':' ∧ digitChar d ≠ '\\' ∧
        digitChar d ≠ '\x7b' ∧ digitChar d ≠ '[' ∧ digitChar d ≠ '\x27' ∧
        digitChar d ≠ ';' ∧ searchSpecial (digitChar d) = false := by
    decide
  by_cases hv : v < 0
  · rw [if_pos hv] at hc
    rcases List.mem_cons.mp hc with rfl | hc2
    · decide
    · obtain ⟨d, hd, rfl⟩ := natStr_chars _ c hc2
      exact base d hd
  · rw [if_neg hv] at hc
    obtain ⟨d, hd, rfl⟩ := natStr_chars _ c hc
    exact base d hd

/-- `pyStrip` leaves a whitespace-free list unchanged. -/
theorem pyStrip_eq_self (s : List Char) (h : ∀ c ∈ s, pyIsSpace c = false) :
    pyStrip s = s := by
  rw [pyStrip]
  have h1 : s.dropWhile pyIsSpace = s := by
    cases hi : s with
    | nil => rfl
    | cons c cs =>
      rw [List.dropWhile_cons, h c (by rw [hi]; simp)]
      simp
  rw [h1]
  cases hi : s.reverse with
  | nil => simp_all
  | cons c cs =>
    rw [List.dropWhile_cons, h c (by rw [← List.mem_reverse, hi]; simp)]
    simp [← hi]

/-- Python `int()` undoes `str()` on every integer. -/
theorem pyInt_intStr (v : Int) : pyInt (intStr v) = some v := by
  have hstrip : pyStrip (intStr v) = intStr v :=
    pyStrip_eq_self _ (fun c hc => (intStr_chars v c hc).1)
  rw [pyInt]
  by_cases hv : v < 0
  · have hi : intStr v = '-' :: natStr v.natAbs := by rw [intStr, if_pos hv]
    rw [hstrip, hi]
    simp [digitGroupVal_natStr, abs_of_neg hv]
  · have hi : intStr v = natStr v.toNat := by rw [intStr, if_neg hv]
    rw [hstrip, hi]
    cases hns : natStr v.toNat with
    | nil => exact absurd hns (natStr_ne_nil _)
    | cons c cs =>
      have base : ∀ d, d < 10 → digitChar d ≠ '-' ∧ digitChar d ≠ '+' := by decide
      obtain ⟨d, hd, rfl⟩ := natStr_chars _ c (by rw [hns]; simp)
      have hnm := base d hd
      simp only [if_neg hnm.1, if_neg hnm.2, ← hns, digitGroupVal_natStr]
      congr 1
      omega

/-- `str(v)` with a type suffix appended re-classifies as that suffix's tag
with the same integer value, whatever the value — there is no range check. -/
theorem simple_value_int_suffix (v : Int) (sfx : Char) (t : Nat)
    (hs : TYPE_SUFFIX_MAP sfx.toLower = some t) :
    _parse_simple_value (intStr v ++ [sfx]) = (.vInt v, t) := by
  have hne : intStr v ++ [sfx] ≠ [] := by simp
  have hlen : 1 < (intStr v ++ [sfx]).length := by
    have h1 : 0 < (intStr v).length := List.length_pos.mpr (intStr_ne_nil v)
    rw [List.length_append]
    simp only [List.length_singleton]
    omega
  have hlast : (intStr v ++ [sfx]).getLastD ' ' = sfx := by
    rw [List.getLastD_eq_getLast?, List.getLast?_concat]
    rfl
  have hany : (intStr v).any (fun c => c = '.' || c.toLower = 'e') = false := by
    rw [List.any_eq_false]
    intro c hc
    have h := intStr_chars v c hc
    simp [h.2.1, h.2.2.1]
  rw [_parse_simple_value, if_neg (by simpa using hne), if_pos hlen, hlast, hs,
    List.dropLast_concat]
  simp [hany, pyInt_intStr]

/-!
### Scanner characterizations

Each index-based scanner is characterized against a decomposition
`s.drop i = core ++ rest` of the remaining input.
-/

/-- A character inequality from distinct code points. -/
theorem char_ne_of_toNat (c d : Char) (h : c.toNat ≠ d.toNat) : c ≠ d :=
  fun he => h (by rw [he])

/-- Everything the round-trip proof needs about a safe text character: it is
not whitespace, not a terminator, quote, bracket, backslash or semicolon,
it does not trigger quoting, and it belongs to the bare-key regex class. -/
theorem safeTextChar_props (c : Char) (h : safeTextChar c = true) :
    pyIsSpace c = false ∧ c ≠ ',' ∧ c ≠ '\x7d' ∧ c ≠ ']' ∧ c ≠ ':' ∧ c ≠ '\\' ∧
      c ≠ '\x7b' ∧ c ≠ '[' ∧ c ≠ '\x27' ∧ c ≠ ';' ∧ c ≠ '-' ∧ c ≠ '+' ∧ c ≠ '.' ∧
      searchSpecial c = false ∧ isKeyChar c = true := by
  rw [safeTextChar] at h
  simp only [Bool.or_eq_true, Bool.and_eq_true, decide_eq_true_eq] at h
  have hrange : (65 ≤ c.toNat ∧ c.toNat ≤ 90) ∨ (97 ≤ c.toNat ∧ c.toNat ≤ 122) ∨
      (48 ≤ c.toNat ∧ c.toNat ≤ 57) ∨ c.toNat = 95 := by
    rcases h with ((h1 | h1) | h1) | h1
    · exact Or.inl h1
    · exact Or.inr (Or.inl h1)
    · exact Or.inr (Or.inr (Or.inl h1))
    · subst h1
      exact Or.inr (Or.inr (Or.inr rfl))
  have hne : ∀ d : Char, (d.toNat < 48 ∨ (57 < d.toNat ∧ d.toNat < 65 ∧ d.toNat ≠ 95) ∨
      (90 < d.toNat ∧ d.toNat < 95) ∨ (95 < d.toNat ∧ d.toNat < 97) ∨
      122 < d.toNat) → c ≠ d := by
    intro d hd he
    subst he
    omega
  have hw1 : c ≠ ' ' := hne _ (by decide)
  have hw2 : c ≠ '\t' := hne _ (by decide)
  have hw3 : c ≠ '\n' := hne _ (by decide)
  have hw4 : c ≠ '\r' := hne _ (by decide)
  have hw5 : c ≠ '\x0b' := hne _ (by decide)
  have hw6 : c ≠ '\x0c' := hne _ (by decide)
  have hsp : pyIsSpace c = false := by
    simp [pyIsSpace, hw1, hw2, hw3, hw4, hw5, hw6]
  have hcomma : c ≠ ',' := hne _ (by decide)
  have hrb : c ≠ '\x7d' := hne _ (by decide)
  have hsq : c ≠ ']' := hne _ (by decide)
  have hcolon : c ≠ ':' := hne _ (by decide)
  have hbs : c ≠ '\\' := hne _ (by decide)
  have hlb : c ≠ '\x7b' := hne _ (by decide)
  have hlbr : c ≠ '[' := hne _ (by decide)
  have hq : c ≠ '\x27' := hne _ (by decide)
  have hsemi : c ≠ ';' := hne _ (by decide)
  have hminus : c ≠ '-' := hne _ (by decide)
  have hplus : c ≠ '+' := hne _ (by decide)
  have hdot : c ≠ '.' := hne _ (by decide)
  refine ⟨hsp, hcomma, hrb, hsq, hcolon, hbs, hlb, hlbr, hq, hsemi, hminus, hplus, hdot,
    ?_, ?_⟩
  · rw [searchSpecial, hsp]
    simp [hcomma, hcolon, hlb, hrb, hq, hlbr, hsq]
  · simp only [isKeyChar, Bool.or_eq_true, Bool.and_eq_true, decide_eq_true_eq]
    rcases h with ((h1 | h1) | h1) | h1
    · tauto
    · tauto
    · tauto
    · subst h1
      tauto

/-- Decomposing one character off the remaining input. -/
theorem drop_cons_getD (s : List Char) (i : Nat) (c : Char) (r : List Char)
    (h : s.drop i = c :: r) : s.getD i ' ' = c ∧ i < s.length ∧ s.drop (i + 1) = r := by
  induction i generalizing s with
  | zero =>
    rw [List.drop_zero] at h
    subst h
    exact ⟨rfl, by simp, by simp⟩
  | succ j ih =>
    cases s with
    | nil => simp at h
    | cons a s2 =>
      rw [List.drop_succ_cons] at h
      obtain ⟨h1, h2, h3⟩ := ih s2 h
      exact ⟨h1, by simpa using h2, by simpa using h3⟩

/-- An exhausted remainder places the cursor past the end. -/
theorem drop_nil_len (s : List Char) (i : Nat) (h : s.drop i = []) : s.length ≤ i := by
  have := congrArg List.length h
  simp only [List.length_drop, List.length_nil] at this
  omega

/-- `skip_whitespace` at or past the end of the input does not move. -/
theorem skip_whitespace_nil (s : List Char) (i : Nat) (h : s.length ≤ i) :
    skip_whitespace s i = i := by
  rw [skip_whitespace]
  have h0 : s.length - i = 0 := by omega
  rw [h0]
  rfl

/-- `skip_whitespace` on a non-whitespace character does not move. -/
theorem skip_whitespace_cons (s : List Char) (i : Nat) (c : Char) (r : List Char)
    (h : s.drop i = c :: r) (hc : pyIsSpace c = false) : skip_whitespace s i = i := by
  obtain ⟨h1, h2, _⟩ := drop_cons_getD s i c r h
  rw [skip_whitespace]
  obtain ⟨k, hk⟩ : ∃ k, s.length - i = k + 1 := ⟨s.length - i - 1, by omega⟩
  rw [hk, skip_whitespace_go, if_neg]
  rw [h1]
  simp [hc]

/-- The unquoted-value scan consumes exactly a terminator-free core and
halts on the following terminator (or the end of the input). -/
theorem simple_scan_go_spec (s : List Char) (core : List Char) :
    ∀ (rest : List Char) (i n : Nat), s.drop i = core ++ rest → s.length - i ≤ n →
    (∀ c ∈ core, c ≠ ',' ∧ c ≠ '\x7d' ∧ c ≠ ']' ∧ c ≠ ':') →
    ((rest = [] ∨ ∃ r, rest = ',' :: r ∨ rest = '\x7d' :: r ∨ rest = ']' :: r) ∨
      (∃ r, rest = ':' :: r ∧ getPrev s (i + core.length) ≠ '\\')) →
    simple_scan_go s n i = i + core.length := by
  induction core with
  | nil =>
    intro rest i n hdrop hn _ hrest
    rw [List.nil_append] at hdrop
    rcases hrest with (rfl | ⟨r, hr | hr | hr⟩) | ⟨r, hr, hprev⟩
    · have := drop_nil_len s i hdrop
      cases n with
      | zero => rfl
      | succ m =>
        rw [simple_scan_go, if_neg]
        · simp
        · omega
    · subst hr
      obtain ⟨h1, h2, _⟩ := drop_cons_getD s i _ r hdrop
      obtain ⟨k, hk⟩ : ∃ k, n = k + 1 := ⟨n - 1, by omega⟩
      subst hk
      rw [simple_scan_go, if_pos h2]
      rw [h1]
      simp
    · subst hr
      obtain ⟨h1, h2, _⟩ := drop_cons_getD s i _ r hdrop
      obtain ⟨k, hk⟩ : ∃ k, n = k + 1 := ⟨n - 1, by omega⟩
      subst hk
      rw [simple_scan_go, if_pos h2]
      rw [h1]
      simp
    · subst hr
      obtain ⟨h1, h2, _⟩ := drop_cons_getD s i _ r hdrop
      obtain ⟨k, hk⟩ : ∃ k, n = k + 1 := ⟨n - 1, by omega⟩
      subst hk
      rw [simple_scan_go, if_pos h2]
      rw [h1]
      simp
    · subst hr
      obtain ⟨h1, h2, _⟩ := drop_cons_getD s i _ r hdrop
      obtain ⟨k, hk⟩ : ∃ k, n = k + 1 := ⟨n - 1, by omega⟩
      subst hk
      simp only [List.length_nil, Nat.add_zero] at hprev
      rw [simple_scan_go, if_pos h2]
      rw [h1]
      rw [if_neg (by simp), if_pos ⟨rfl, hprev⟩]
      simp
  | cons c cs ih =>
    intro rest i n hdrop hn hcore hrest
    rw [List.cons_append] at hdrop
    obtain ⟨h1, h2, h3⟩ := drop_cons_getD s i _ _ hdrop
    obtain ⟨hc1, hc2, hc3, hc4⟩ := hcore c (by simp)
    obtain ⟨k, hk⟩ : ∃ k, n = k + 1 := ⟨n - 1, by omega⟩
    subst hk
    rw [simple_scan_go, if_pos h2, h1]
    rw [if_neg (by simp [hc1, hc2, hc3]), if_neg (by simp [hc4])]
    have hstep : simple_scan_go s k (i + 1) = (i + 1) + cs.length := by
      refine ih rest (i + 1) k h3 (by omega) (fun x hx => hcore x (by simp [hx])) ?_
      rcases hrest with h | ⟨r, hr, hprev⟩
      · exact Or.inl h
      · refine Or.inr ⟨r, hr, ?_⟩
        have he : i + 1 + cs.length = i + (c :: cs).length := by
          simp only [List.length_cons]
          omega
        rw [he]
        exact hprev
    rw [hstep]
    simp only [List.length_cons]
    omega

/-- Index form of the unquoted-value scan characterization. -/
theorem simple_scan_spec (s core rest : List Char) (i : Nat)
    (hdrop : s.drop i = core ++ rest)
    (hcore : ∀ c ∈ core, c ≠ ',' ∧ c ≠ '\x7d' ∧ c ≠ ']' ∧ c ≠ ':')
    (hrest : (rest = [] ∨ ∃ r, rest = ',' :: r ∨ rest = '\x7d' :: r ∨ rest = ']' :: r) ∨
      (∃ r, rest = ':' :: r ∧ getPrev s (i + core.length) ≠ '\\')) :
    simple_scan s i = i + core.length :=
  simple_scan_go_spec s core rest i (s.length - i) hdrop le_rfl hcore hrest

/-- The compound key scan consumes exactly a colon-and-backslash-free core
and halts on the following colon. -/
theorem key_scan_go_spec (s : List Char) (core : List Char) :
    ∀ (rest : List Char) (i n : Nat), s.drop i = core ++ ':' :: rest →
    s.length - i ≤ n → (∀ c ∈ core, c ≠ ':' ∧ c ≠ '\\') →
    key_scan_go s n i false = i + core.length := by
  induction core with
  | nil =>
    intro rest i n hdrop hn _
    rw [List.nil_append] at hdrop
    obtain ⟨h1, h2, _⟩ := drop_cons_getD s i _ rest hdrop
    obtain ⟨k, hk⟩ : ∃ k, n = k + 1 := ⟨n - 1, by omega⟩
    subst hk
    rw [key_scan_go, if_pos h2]
    rw [h1]
    simp
  | cons c cs ih =>
    intro rest i n hdrop hn hcore
    rw [List.cons_append] at hdrop
    obtain ⟨h1, h2, h3⟩ := drop_cons_getD s i _ _ hdrop
    obtain ⟨hc1, hc2⟩ := hcore c (by simp)
    obtain ⟨k, hk⟩ : ∃ k, n = k + 1 := ⟨n - 1, by omega⟩
    subst hk
    rw [key_scan_go, if_pos h2, h1]
    rw [if_neg (by simp), if_neg (by simp [hc2]), if_neg (by simp [hc1])]
    rw [ih rest (i + 1) k h3 (by omega) (fun x hx => hcore x (by simp [hx]))]
    simp only [List.length_cons]
    omega

/-- Index form of the key scan characterization. -/
theorem key_scan_spec (s core rest : List Char) (i : Nat)
    (hdrop : s.drop i = core ++ ':' :: rest)
    (hcore : ∀ c ∈ core, c ≠ ':' ∧ c ≠ '\\') :
    key_scan s i false = i + core.length :=
  key_scan_go_spec s core rest i (s.length - i) hdrop le_rfl hcore

/-- The bare-key class run consumes exactly a run of key-class characters
and halts on the first character outside the class (or the end). -/
theorem class_run_go_spec (s : List Char) (core : List Char) :
    ∀ (rest : List Char) (i n : Nat), s.drop i = core ++ rest → s.length - i ≤ n →
    (∀ c ∈ core, isKeyChar c = true) →
    (rest = [] ∨ ∃ c r, rest = c :: r ∧ isKeyChar c = false) →
    class_run_go s n i = i + core.length := by
  induction core with
  | nil =>
    intro rest i n hdrop hn _ hrest
    rw [List.nil_append] at hdrop
    rcases hrest with rfl | ⟨c, r, rfl, hc⟩
    · have := drop_nil_len s i hdrop
      cases n with
      | zero => rfl
      | succ m =>
        rw [class_run_go, if_neg]
        · simp
        · omega
    · obtain ⟨h1, h2, _⟩ := drop_cons_getD s i _ r hdrop
      obtain ⟨k, hk⟩ : ∃ k, n = k + 1 := ⟨n - 1, by omega⟩
      subst hk
      rw [class_run_go, if_neg]
      · simp
      · rw [h1]
        simp [hc]
  | cons c cs ih =>
    intro rest i n hdrop hn hcore hrest
    rw [List.cons_append] at hdrop
    obtain ⟨h1, h2, h3⟩ := drop_cons_getD s i _ _ hdrop
    obtain ⟨k, hk⟩ : ∃ k, n = k + 1 := ⟨n - 1, by omega⟩
    subst hk
    rw [class_run_go, if_pos (by rw [h1]; exact ⟨h2, hcore c (by simp)⟩)]
    rw [ih rest (i + 1) k h3 (by omega) (fun x hx => hcore x (by simp [hx])) hrest]
    simp only [List.length_cons]
    omega

/-- Index form of the class-run characterization. -/
theorem class_run_spec (s core rest : List Char) (i : Nat)
    (hdrop : s.drop i = core ++ rest)
    (hcore : ∀ c ∈ core, isKeyChar c = true)
    (hrest : rest = [] ∨ ∃ c r, rest = c :: r ∧ isKeyChar c = false) :
    class_run s i = i + core.length :=
  class_run_go_spec s core rest i (s.length - i) hdrop le_rfl hcore hrest

/-- If the only colon below `m` sits at `p`, the backtracking search finds
it. -/
theorem lastColonBefore_spec (s : List Char) (p : Nat) :
    ∀ m, p < m → s.getD p ' ' = ':' →
    (∀ j, p < j → j < m → s.getD j ' ' ≠ ':') → lastColonBefore s m = some p := by
  intro m
  induction m with
  | zero =>
    intro h1 _ _
    omega
  | succ q ih =>
    intro hpm hp hno
    rw [lastColonBefore]
    by_cases hqp : q = p
    · subst hqp
      rw [if_pos hp]
    · rw [if_neg (hno q (by omega) (by omega))]
      exact ih (by omega) hp (fun j h1 h2 => hno j h1 (by omega))

/-- Advancing the cursor past a known chunk of the remaining input. -/
theorem drop_append (s : List Char) (i : Nat) (a b : List Char)
    (h : s.drop i = a ++ b) : s.drop (i + a.length) = b := by
  have h2 := congrArg (List.drop a.length) h
  rw [List.drop_drop, List.drop_left] at h2
  exact h2

/-- Taking exactly a known chunk of the remaining input. -/
theorem take_append_self (a b : List Char) : (a ++ b).take a.length = a :=
  List.take_left a b

/-- `lstrip` does not move over a non-whitespace head. -/
theorem pyLStrip_cons (c : Char) (r : List Char) (hc : pyIsSpace c = false) :
    pyLStrip (c :: r) = c :: r := by
  rw [pyLStrip, List.dropWhile_cons, hc]
  simp

/-- A two-character prefix test succeeds exactly on a literal match. -/
theorem two_isPrefixOf_iff (a b : Char) (l : List Char) :
    [a, b].isPrefixOf l = true ↔ ∃ t, l = a :: b :: t := by
  cases l with
  | nil => simp [List.isPrefixOf]
  | cons x xs =>
    cases xs with
    | nil => simp [List.isPrefixOf]
    | cons y ys =>
      simp only [List.isPrefixOf, Bool.and_eq_true, beq_iff_eq]
      constructor
      · rintro ⟨rfl, rfl, -⟩
        exact ⟨ys, rfl⟩
      · rintro ⟨t, ht⟩
        obtain ⟨rfl, rfl, rfl⟩ : x = a ∧ y = b ∧ ys = t := by
          simpa using ht
        simp [List.isPrefixOf]

/-- The array-marker peek fails whenever the second peeked character is not
a semicolon. -/
theorem marker_prefix_false (x : Char) (l2 : List Char) (h2 : ∀ t, l2 ≠ ';' :: t) :
    ¬(['B', ';'].isPrefixOf (x :: l2) = true ∨ ['I', ';'].isPrefixOf (x :: l2) = true ∨
      ['L', ';'].isPrefixOf (x :: l2) = true) := by
  intro h
  rcases h with h | h | h <;>
  · obtain ⟨t, ht⟩ := (two_isPrefixOf_iff _ _ _).mp h
    have : l2 = ';' :: t := (List.cons_eq_cons.mp ht).2
    exact h2 t this

/-- `_parse_value` over an unquoted scalar chunk: it consumes exactly the
chunk and classifies it with `_parse_simple_value`. -/
theorem parse_value_scalar (fuel : Nat) (s : List Char) (i : Nat) (core rest : List Char)
    (hdrop : s.drop i = core ++ rest) (hne : core ≠ [])
    (hcore : ∀ c ∈ core, pyIsSpace c = false ∧ c ≠ ',' ∧ c ≠ '\x7d' ∧ c ≠ ']' ∧ c ≠ ':')
    (hhead : core.headD ' ' ≠ '\x7b' ∧ core.headD ' ' ≠ '[' ∧ core.headD ' ' ≠ '\x27')
    (hrest : (rest = [] ∨ ∃ r, rest = ',' :: r ∨ rest = '\x7d' :: r ∨ rest = ']' :: r) ∨
      (∃ r, rest = ':' :: r ∧ getPrev s (i + core.length) ≠ '\\')) :
    _parse_value (fuel + 1) s i =
      .ok (.tagged (_parse_simple_value core).2 (_parse_simple_value core).1,
        i + core.length) := by
  obtain ⟨c0, cs, rfl⟩ : ∃ c0 cs, core = c0 :: cs := by
    cases core with
    | nil => exact absurd rfl hne
    | cons c0 cs => exact ⟨c0, cs, rfl⟩
  simp only [List.headD_cons] at hhead
  have hdrop2 : s.drop i = c0 :: (cs ++ rest) := by simpa using hdrop
  obtain ⟨h1, h2, h3⟩ := drop_cons_getD s i _ _ hdrop2
  have hskip : skip_whitespace s i = i :=
    skip_whitespace_cons s i _ _ hdrop2 (hcore c0 (by simp)).1
  have hscan : simple_scan s i = i + (c0 :: cs).length :=
    simple_scan_spec s _ rest i hdrop
      (fun c hc => ⟨(hcore c hc).2.1, (hcore c hc).2.2.1, (hcore c hc).2.2.2.1,
        (hcore c hc).2.2.2.2⟩) hrest
  have htake : (s.drop i).take (i + (c0 :: cs).length - i) = c0 :: cs := by
    rw [hdrop, show i + (c0 :: cs).length - i = (c0 :: cs).length from by omega]
    exact take_append_self _ _
  have hstrip : pyStrip (c0 :: cs) = c0 :: cs :=
    pyStrip_eq_self _ (fun c hc => (hcore c hc).1)
  rw [_parse_value]
  simp only [hskip, h1, hscan, htake, hstrip]
  rw [if_neg (by omega), if_neg hhead.1, if_neg hhead.2.1, if_neg hhead.2.2,
    if_neg (by simp)]

/-- C10: in the bare `key:value` top-level form the parser returns after the
first value and silently ignores whatever follows it — the returned index is
discarded, so the document is just the key and that value; concretely
`a:1,junk` parses to a ↦ Int 1 with no error for `,junk`. -/
theorem C10_trailing_ignored :
    (∀ (l : List Char) (k : List Char) (i : Nat) (v : Node) (j : Nat),
      pyStrip l ≠ [] →
      topKeyMatch (pyStrip l) = some (k, i) →
      _parse_value (parseFuel (pyStrip l)) (pyStrip l) i = .ok (v, j) →
      parseChars l = .ok [(String.mk k, v)]) ∧
    parse_readable_nbt "a:1,junk" = .ok [("a", .tagged 3 (.vInt 1))] := by
  refine ⟨?_, rfl⟩
  intro l k i v j hne hmatch hparse
  rw [parseChars]
  simp only [hne, hmatch, hparse]
  simp [hne]

/-- C10 witness: the general clause applied to `a:1,junk`, whose value ends
at index 3 with the suffix `,junk` left unread. -/
theorem C10_trailing_ignored_witness :
    parseChars "a:1,junk".data = .ok [("a", .tagged 3 (.vInt 1))] :=
  C10_trailing_ignored.1 "a:1,junk".data "a".data 2 (.tagged 3 (.vInt 1)) 3
    (by decide) rfl rfl


/-- C4 (amended): a list element with leading `key:` syntax always fails,
but with the missing-separator error raised at the colon position — for
every nonempty safe key text k, `x:[` ++ k ++ `:1]` fails with
missing-separator at the colon — while a bare top-level `[a:1]` fails the
top-level-shape check.  No named-tag error kind exists in the code. -/
theorem C4_named_tag_in_list :
    (∀ (k : List Char), k ≠ [] → (∀ c ∈ k, safeTextChar c = true) →
      parseChars ("x:[".data ++ k ++ ":1]".data) =
        .error (.missingSeparatorList (3 + k.length))) ∧
    parse_readable_nbt "[a:1]" = .error .invalidTopLevel ∧
    parse_readable_nbt "x:[a:1]" = .error (.missingSeparatorList 4) := by
  refine ⟨?_, rfl, rfl⟩
  intro k hk hsafe
  obtain ⟨k0, ks, rfl⟩ : ∃ k0 ks, k = k0 :: ks := by
    cases k with
    | nil => exact absurd rfl hk
    | cons k0 ks => exact ⟨k0, ks, rfl⟩
  set k := k0 :: ks with hkdef
  set l := "x:[".data ++ k ++ ":1]".data with hl
  have hprops := fun c hc => safeTextChar_props c (hsafe c hc)
  have hdrop0 : l.drop 0 = ['x', ':'] ++ ('[' :: (k ++ ":1]".data)) := by
    rw [hl]
    rfl
  have hdrop1 : l.drop 1 = ':' :: ('[' :: (k ++ ":1]".data)) := by
    rw [hl]
    rfl
  have hdrop2 : l.drop 2 = '[' :: (k ++ ":1]".data) := by
    rw [hl]
    rfl
  have hdrop3 : l.drop 3 = k ++ ":1]".data := by
    rw [hl]
    rfl
  have hdrop3k : l.drop 3 = k0 :: (ks ++ ":1]".data) := by
    rw [hdrop3, hkdef]
    rfl
  have hstrip : pyStrip l = l := by
    refine pyStrip_eq_self l ?_
    intro c hc
    rw [hl] at hc
    simp only [List.mem_append] at hc
    rcases hc with (hc | hc) | hc
    · fin_cases hc <;> rfl
    · exact (hprops c hc).1
    · fin_cases hc <;> rfl
  obtain ⟨hg2, hl2, -⟩ := drop_cons_getD l 2 _ _ hdrop2
  obtain ⟨hg1, hl1, -⟩ := drop_cons_getD l 1 _ _ hdrop1
  obtain ⟨hg3, hl3, -⟩ := drop_cons_getD l 3 _ _ hdrop3k
  obtain ⟨q1, q2, q3, q4, q5, q6, q7, q8, q9, q10, -⟩ := hprops k0 (by simp [hkdef])
  have hskip2 : skip_whitespace l 2 = 2 := skip_whitespace_cons l 2 _ _ hdrop2 rfl
  have hrun : class_run l 0 = 2 := by
    have h := class_run_spec l ['x', ':'] ('[' :: (k ++ ":1]".data)) 0 hdrop0
      (by intro c hc; fin_cases hc <;> rfl)
      (Or.inr ⟨'[', k ++ ":1]".data, rfl, rfl⟩)
    simpa using h
  have hmatch : topKeyMatch l = some (['x'], 2) := by
    rw [topKeyMatch, hrun]
    rw [if_neg (by norm_num)]
    rw [hskip2]
    rw [if_neg (by rw [hg2]; simp)]
    have hlast : lastColonBefore l 2 = some 1 := by
      refine lastColonBefore_spec l 1 2 (by norm_num) hg1 ?_
      intro j hj1 hj2
      omega
    simp only [hlast]
    rw [if_neg (by norm_num)]
    have htake : l.take 1 = ['x'] := by
      rw [hl]
      rfl
    rw [htake]
    rfl
  obtain ⟨ks2, kl, hk2⟩ : ∃ ks2 kl, k = ks2 ++ [kl] := by
    rcases List.eq_nil_or_concat' k with h | ⟨ks2, kl, h⟩
    · rw [hkdef] at h
      simp at h
    · exact ⟨ks2, kl, h⟩
  have hklmem : kl ∈ k := by
    rw [hk2]
    simp
  have hprev : getPrev l (3 + k.length) ≠ '\\' := by
    have hshape : l.drop 3 = ks2 ++ (kl :: ":1]".data) := by
      rw [hdrop3, hk2]
      simp
    have hd := drop_append l 3 ks2 (kl :: ":1]".data) hshape
    obtain ⟨hgl, -, -⟩ := drop_cons_getD l (3 + ks2.length) _ _ hd
    rw [getPrev, if_neg (by omega)]
    have hidx : 3 + k.length - 1 = 3 + ks2.length := by
      rw [hk2]
      simp only [List.length_append, List.length_singleton]
      omega
    rw [hidx, hgl]
    exact (hprops kl hklmem).2.2.2.2.2.1
  have hvalue : ∀ f : Nat, _parse_value (f + 1) l 3 =
      .ok (.tagged (_parse_simple_value k).2 (_parse_simple_value k).1, 3 + k.length) := by
    intro f
    refine parse_value_scalar f l 3 k (":1]".data) hdrop3 (by simp [hkdef]) ?_ ?_ ?_
    · intro c hc
      obtain ⟨p1, p2, p3, p4, p5, -⟩ := hprops c hc
      exact ⟨p1, p2, p3, p4, p5⟩
    · rw [hkdef]
      exact ⟨q7, q8, q9⟩
    · exact Or.inr ⟨"1]".data, rfl, hprev⟩
  have hdropcolon : l.drop (3 + k.length) = ':' :: "1]".data := by
    exact drop_append l 3 k (":1]".data) hdrop3
  obtain ⟨hgc, hlc, -⟩ := drop_cons_getD l (3 + k.length) _ _ hdropcolon
  have hskipc : skip_whitespace l (3 + k.length) = 3 + k.length :=
    skip_whitespace_cons l (3 + k.length) _ _ hdropcolon rfl
  have hloop : ∀ f : Nat, _parse_list_loop (f + 2) l 3 [] =
      .error (.missingSeparatorList (3 + k.length)) := by
    intro f
    rw [show f + 2 = (f + 1) + 1 from rfl, _parse_list_loop]
    rw [if_pos hl3]
    simp only [hvalue f]
    simp only [hskipc]
    rw [if_neg (by rw [hgc]; simp), if_neg (by rw [hgc]; simp)]
  have hpeek : pyLStrip (l.drop 3) = k0 :: (ks ++ ":1]".data) := by
    rw [hdrop3k]
    exact pyLStrip_cons k0 _ q1
  have hmarker : ¬(['B', ';'].isPrefixOf (k0 :: (ks ++ ":1]".data)) = true ∨
      ['I', ';'].isPrefixOf (k0 :: (ks ++ ":1]".data)) = true ∨
      ['L', ';'].isPrefixOf (k0 :: (ks ++ ":1]".data)) = true) := by
    refine marker_prefix_false k0 _ ?_
    intro t ht
    cases ks with
    | nil => simp at ht
    | cons c1 ks3 =>
      have hc1 : c1 = ';' := by
        have h2 : c1 :: (ks3 ++ ":1]".data) = ';' :: t := by simpa using ht
        exact (List.cons_eq_cons.mp h2).1
      obtain ⟨-, -, -, -, -, -, -, -, -, r10, -⟩ := hprops c1 (by simp [hkdef])
      exact r10 hc1
  have hskip3 : skip_whitespace l 3 = 3 := skip_whitespace_cons l 3 _ _ hdrop3k q1
  have hlist : ∀ f : Nat, _parse_list (f + 3) l 3 =
      .error (.missingSeparatorList (3 + k.length)) := by
    intro f
    rw [show f + 3 = (f + 2) + 1 from rfl, _parse_list]
    simp only [hskip3]
    rw [if_neg ?hcond]
    case hcond =>
      rintro (h | h)
      · omega
      · rw [hg3] at h
        exact q4 h
    exact hloop f
  have hvalue2 : _parse_value (parseFuel l) l 2 =
      .error (.missingSeparatorList (3 + k.length)) := by
    rw [show parseFuel l = (2 * l.length + 1) + 1 from rfl, _parse_value]
    simp only [hskip2, hg2]
    rw [if_neg (by omega)]
    simp only [if_true]
    rw [show (2 : Nat) + 1 = 3 from rfl]
    rw [hpeek]
    rw [if_neg hmarker]
    have hfuel : 2 * l.length + 1 = (2 * l.length - 2) + 3 := by omega
    rw [hfuel]
    simp only [hlist (2 * l.length - 2)]
    rw [if_neg (by decide)]
  rw [parseChars]
  simp only [hstrip]
  rw [if_neg (by rw [hl]; simp)]
  simp only [hmatch, hvalue2]

/-- C4 witness: the general clause instantiated at the key text `a`,
reproducing the spec's example `x:[a:1]`. -/
theorem C4_named_tag_in_list_witness :
    parseChars ("x:[".data ++ "a".data ++ ":1]".data) =
      .error (.missingSeparatorList 4) :=
  C4_named_tag_in_list.1 "a".data (by decide) (by decide)


/-!
### Serializer facts on the round-trip class
-/

/-- A single-character replace pass is the identity when the pattern is
absent. -/
theorem rep1_id (pat : Char) (sub : List Char) (l : List Char)
    (h : ∀ c ∈ l, c ≠ pat) : rep1 pat sub l = l := by
  induction l with
  | nil => rfl
  | cons c r ih =>
    rw [rep1] at ih ⊢
    simp only [List.flatMap_cons]
    rw [if_neg (h c (by simp))]
    rw [ih (fun x hx => h x (by simp [hx]))]
    rfl

/-- Key escaping is the identity on safe keys. -/
theorem key_escape_safe (k : List Char) (h : ∀ c ∈ k, safeTextChar c = true) :
    key_escape k = k := by
  have p := fun c hc => safeTextChar_props c (h c hc)
  rw [key_escape]
  rw [rep1_id _ _ _ (fun c hc => (p c hc).2.2.2.2.2.1),
    rep1_id _ _ _ (fun c hc => (p c hc).2.2.2.2.2.2.2.2.1),
    rep1_id _ _ _ (fun c hc => (p c hc).2.2.2.2.1),
    rep1_id _ _ _ (fun c hc => (p c hc).2.2.2.2.2.2.1),
    rep1_id _ _ _ (fun c hc => (p c hc).2.2.1),
    rep1_id _ _ _ (fun c hc => (p c hc).2.2.2.2.2.2.2.1),
    rep1_id _ _ _ (fun c hc => (p c hc).2.2.2.1)]

/-- A two-character replace pass is the identity when the first pattern
character is absent. -/
theorem pyReplace2_id (a b : Char) (sub : List Char) (l : List Char)
    (h : ∀ c ∈ l, c ≠ a) : pyReplace2 a b sub l = l := by
  induction l with
  | nil => rfl
  | cons c r ih =>
    cases r with
    | nil => rfl
    | cons d r2 =>
      rw [pyReplace2, if_neg (by intro hab; exact h c (by simp) hab.1)]
      rw [ih (fun x hx => h x (by simp [hx]))]

/-- Key unescaping is the identity on backslash-free keys. -/
theorem key_unescape_safe (k : List Char) (h : ∀ c ∈ k, c ≠ '\\') :
    key_unescape k = k := by
  rw [key_unescape]
  rw [pyReplace2_id _ _ _ _ h, pyReplace2_id _ _ _ _ h, pyReplace2_id _ _ _ _ h,
    pyReplace2_id _ _ _ _ h, pyReplace2_id _ _ _ _ h, pyReplace2_id _ _ _ _ h,
    pyReplace2_id _ _ _ _ h, pyReplace2_id _ _ _ _ h]

/-- No safe key is in the special-folding table (those keys contain a
colon). -/
theorem SPECIAL_KEYS_safe (k : String) (h : safeKey k = true) :
    SPECIAL_KEYS k = none := by
  rw [safeKey] at h
  simp only [Bool.and_eq_true] at h
  have hall := h.1.1.2
  have hA : k ≠ "minecraft:item_lock" := by
    intro he
    subst he
    revert hall
    decide
  have hB : k ≠ "minecraft:keep_on_death" := by
    intro he
    subst he
    revert hall
    decide
  rw [SPECIAL_KEYS, if_neg hA, if_neg hB]

/-- On safe entries the serializer emits plain `key:value` pairs. -/
theorem entry_strings_safe (es : List (String × Node)) (h : SafeEntries es = true) :
    entry_strings es = es.map (fun e => e.1.data ++ ':' :: _to_string e.2) := by
  induction es with
  | nil => rfl
  | cons e r ih =>
    obtain ⟨k, v⟩ := e
    rw [SafeEntries] at h
    simp only [Bool.and_eq_true] at h
    rw [entry_strings, SPECIAL_KEYS_safe k h.1.1]
    rw [List.map_cons]
    rw [ih h.2]
    have hka : k.data.all safeTextChar = true := by
      rw [safeKey] at h
      simp only [Bool.and_eq_true] at h
      exact h.1.1.1.1.2
    rw [key_escape_safe k.data (fun c hc => by
      rw [List.all_eq_true] at hka
      exact hka c hc)]

/-- `to_string_list` is just the map of the serializer. -/
theorem to_string_list_eq_map (xs : List Node) :
    to_string_list xs = xs.map _to_string := by
  induction xs with
  | nil => rfl
  | cons x r ih =>
    rw [to_string_list, ih, List.map_cons]

/-- Membership in a comma join comes from the separator or one of the
pieces. -/
theorem joinComma_mem (L : List (List Char)) (c : Char) (hc : c ∈ joinComma L) :
    c = ',' ∨ ∃ x ∈ L, c ∈ x := by
  induction L with
  | nil => simp [joinComma] at hc
  | cons x r ih =>
    cases r with
    | nil =>
      rw [joinComma] at hc
      exact Or.inr ⟨x, by simp, hc⟩
    | cons y r2 =>
      rw [joinComma] at hc
      rw [List.mem_append] at hc
      rcases hc with hc | hc
      · exact Or.inr ⟨x, by simp, hc⟩
      · rcases List.mem_cons.mp hc with rfl | hc2
        · exact Or.inl rfl
        · rcases ih hc2 with h | ⟨z, hz, hcz⟩
          · exact Or.inl h
          · exact Or.inr ⟨z, by simp [hz], hcz⟩

/-- Safety of an entry of a safe entry list. -/
theorem SafeEntries_mem (es : List (String × Node)) (h : SafeEntries es = true)
    (k : String) (v : Node) (hm : (k, v) ∈ es) : safeKey k = true ∧ SafeNode v = true := by
  induction es with
  | nil => simp at hm
  | cons e r ih =>
    obtain ⟨k2, v2⟩ := e
    rw [SafeEntries] at h
    simp only [Bool.and_eq_true] at h
    rcases List.mem_cons.mp hm with he | hm2
    · injection he with h1 h2
      subst h1
      subst h2
      exact ⟨h.1.1, h.1.2⟩
    · exact ih h.2 hm2

/-- Safety of an element of a safe list. -/
theorem SafeList_mem (xs : List Node) (h : SafeList xs = true)
    (v : Node) (hm : v ∈ xs) : SafeNode v = true := by
  induction xs with
  | nil => simp at hm
  | cons x r ih =>
    rw [SafeList] at h
    simp only [Bool.and_eq_true] at h
    rcases List.mem_cons.mp hm with rfl | hm2
    · exact h.1
    · exact ih h.2 hm2

/-- Fuel bound for a member entry. -/
theorem needE_mem (es : List (String × Node)) (k : String) (v : Node)
    (hm : (k, v) ∈ es) : needV v < 1 + needE es := by
  induction es with
  | nil => simp at hm
  | cons e r ih =>
    obtain ⟨e1, e2⟩ := e
    rcases List.mem_cons.mp hm with he | hm2
    · injection he with h1 h2
      subst h2
      rw [needE]
      omega
    · have := ih hm2
      rw [needE]
      omega

/-- Fuel bound for a member element. -/
theorem needL_mem (xs : List Node) (v : Node) (hm : v ∈ xs) :
    needV v < 1 + needL xs := by
  induction xs with
  | nil => simp at hm
  | cons x r ih =>
    rcases List.mem_cons.mp hm with rfl | hm2
    · rw [needL]
      omega
    · have := ih hm2
      rw [needL]
      omega

/-- The parser measure is positive. -/
theorem needV_pos (v : Node) : 1 ≤ needV v := by
  cases v <;> rw [needV] <;> omega

/-- Shape of a serialized integer scalar under a suffixed tag. -/
theorem ser_tagged_int (t : Nat) (m : Int)
    (ht : t = 1 ∨ t = 2 ∨ t = 3 ∨ t = 4 ∨ t = 5 ∨ t = 6) :
    _to_string (.tagged t (.vInt m)) = intStr m ++ suffix_for t := by
  rcases ht with rfl | rfl | rfl | rfl | rfl | rfl <;> rfl

/-- Shape of a serialized string scalar that needs no quoting. -/
theorem ser_tagged_str (s : String) (hq : s.data.any searchSpecial = false) :
    _to_string (.tagged 8 (.vStr s)) = s.data := by
  have h : _to_string (.tagged 8 (.vStr s)) =
      (if s.data.any searchSpecial = true then '\x27' :: str_escape s.data ++ ['\x27']
       else s.data) := rfl
  rw [h, hq]
  simp

/-- Shape of a serialized compound. -/
theorem ser_compound (es : List (String × Node)) :
    _to_string (.compound es) = '\x7b' :: (joinComma (entry_strings es) ++ ['\x7d']) := rfl

/-- Shape of a serialized list. -/
theorem ser_pylist (xs : List Node) :
    _to_string (.pylist xs) = '[' :: (joinComma (to_string_list xs) ++ [']']) := rfl

/-- The six numeric suffixes and their lookup, case by case. -/
theorem suffix_facts (t : Nat) (ht : t = 1 ∨ t = 2 ∨ t = 3 ∨ t = 4 ∨ t = 5 ∨ t = 6) :
    (∃ c, suffix_for t = [c] ∧ TYPE_SUFFIX_MAP c.toLower = some t ∧
      pyIsSpace c = false ∧ c ≠ ';' ∧ c ≠ ',' ∧ c ≠ '\x7d' ∧ c ≠ ']' ∧ c ≠ ':' ∧
      isKeyChar c = true) := by
  rcases ht with rfl | rfl | rfl | rfl | rfl | rfl
  · exact ⟨'b', rfl, by decide⟩
  · exact ⟨'s', rfl, by decide⟩
  · exact ⟨'i', rfl, by decide⟩
  · exact ⟨'l', rfl, by decide⟩
  · exact ⟨'f', rfl, by decide⟩
  · exact ⟨'d', rfl, by decide⟩

/-- A safe string triggers no quoting. -/
theorem safe_no_quote (s : String) (h : s.data.all safeTextChar = true) :
    s.data.any searchSpecial = false := by
  rw [List.any_eq_false]
  intro c hc
  rw [List.all_eq_true] at h
  have := (safeTextChar_props c (h c hc)).2.2.2.2.2.2.2.2.2.2.2.2.2.1
  simp [this]

/-- Serialized safe nodes are nonempty and contain neither whitespace nor a
semicolon. -/
theorem ser_facts (n : Nat) : ∀ (v : Node), needV v ≤ n → SafeNode v = true →
    _to_string v ≠ [] ∧ ∀ c ∈ _to_string v, pyIsSpace c = false ∧ c ≠ ';' := by
  induction n with
  | zero =>
    intro v hn hv
    exact absurd hn (by have := needV_pos v; omega)
  | succ n ih =>
    intro v hn hv
    cases v with
    | tagged t pv =>
      cases pv with
      | vNone => simp [SafeNode] at hv
      | vFloat f => simp [SafeNode] at hv
      | vInt m =>
        simp only [SafeNode, Bool.or_eq_true, beq_iff_eq] at hv
        have ht : t = 1 ∨ t = 2 ∨ t = 3 ∨ t = 4 ∨ t = 5 ∨ t = 6 := by tauto
        rw [ser_tagged_int t m ht]
        obtain ⟨sc, hsc, -, hsp, hsemi, -⟩ := suffix_facts t ht
        refine ⟨by simp [hsc], ?_⟩
        intro c hc
        rcases List.mem_append.mp hc with hc | hc
        · have h := intStr_chars m c hc
          exact ⟨h.1, h.2.2.2.2.2.2.2.2.2.2.2.1⟩
        · rw [hsc] at hc
          simp only [List.mem_singleton] at hc
          subst hc
          exact ⟨hsp, hsemi⟩
      | vStr str =>
        simp only [SafeNode, Bool.and_eq_true, beq_iff_eq, Bool.not_eq_true] at hv
        obtain ⟨⟨⟨ht8, hne⟩, hall⟩, -⟩ := hv
        subst ht8
        rw [ser_tagged_str str (safe_no_quote str hall)]
        refine ⟨by simpa using hne, ?_⟩
        intro c hc
        rw [List.all_eq_true] at hall
        have h := safeTextChar_props c (hall c hc)
        exact ⟨h.1, h.2.2.2.2.2.2.2.2.2.1⟩
    | taggedArr t vs => rw [SafeNode] at hv; simp at hv
    | compound es =>
      rw [SafeNode] at hv
      simp only [Bool.and_eq_true] at hv
      rw [ser_compound]
      refine ⟨by simp, ?_⟩
      intro c hc
      rcases List.mem_cons.mp hc with rfl | hc2
      · exact ⟨rfl, by decide⟩
      rcases List.mem_append.mp hc2 with hc3 | hc3
      · rcases joinComma_mem _ c hc3 with rfl | ⟨x, hx, hcx⟩
        · exact ⟨rfl, by decide⟩
        · rw [entry_strings_safe es hv.2] at hx
          rw [List.mem_map] at hx
          obtain ⟨⟨k, w⟩, hmem, rfl⟩ := hx
          obtain ⟨hkk, hww⟩ := SafeEntries_mem es hv.2 k w hmem
          rcases List.mem_append.mp hcx with hck | hck
          · rw [safeKey] at hkk
            simp only [Bool.and_eq_true] at hkk
            have hall := hkk.1.1.2
            rw [List.all_eq_true] at hall
            have h := safeTextChar_props c (hall c hck)
            exact ⟨h.1, h.2.2.2.2.2.2.2.2.2.1⟩
          · rcases List.mem_cons.mp hck with rfl | hcs
            · exact ⟨rfl, by decide⟩
            · have hwn : needV w ≤ n := by
                have h1 := needE_mem es k w hmem
                rw [needV] at hn
                omega
              exact (ih w hwn hww).2 c hcs
      · simp only [List.mem_singleton] at hc3
        subst hc3
        exact ⟨rfl, by decide⟩
    | pylist xs =>
      rw [SafeNode] at hv
      rw [ser_pylist]
      refine ⟨by simp, ?_⟩
      intro c hc
      rcases List.mem_cons.mp hc with rfl | hc2
      · exact ⟨rfl, by decide⟩
      rcases List.mem_append.mp hc2 with hc3 | hc3
      · rcases joinComma_mem _ c hc3 with rfl | ⟨x, hx, hcx⟩
        · exact ⟨rfl, by decide⟩
        · rw [to_string_list_eq_map] at hx
          rw [List.mem_map] at hx
          obtain ⟨w, hmem, rfl⟩ := hx
          have hww := SafeList_mem xs hv w hmem
          have hwn : needV w ≤ n := by
            have h1 := needL_mem xs w hmem
            rw [needV] at hn
            omega
          exact (ih w hwn hww).2 c hcx
      · simp only [List.mem_singleton] at hc3
        subst hc3
        exact ⟨rfl, by decide⟩

/-- The fuel needed by an entry list is within twice its serialized
length, given the member bounds. -/
theorem needE_bound (es : List (String × Node))
    (h : ∀ e ∈ es, needV e.2 + 1 ≤ 2 * (_to_string e.2).length) :
    needE es ≤
      2 * (joinComma (es.map (fun e => e.1.data ++ ':' :: _to_string e.2))).length := by
  induction es with
  | nil => simp [needE, joinComma]
  | cons e r ih =>
    obtain ⟨k, w⟩ := e
    have hw : needV w + 1 ≤ 2 * (_to_string w).length := h (k, w) (by simp)
    cases r with
    | nil =>
      simp only [needE, List.map_cons, List.map_nil, joinComma, List.length_append,
        List.length_cons]
      omega
    | cons y r2 =>
      have ihr := ih (fun x hx => h x (by simp at hx ⊢; tauto))
      simp only [needE, List.map_cons, joinComma, List.length_append,
        List.length_cons] at ihr ⊢
      omega

/-- The fuel needed by an element list is within twice its serialized
length, given the member bounds. -/
theorem needL_bound (xs : List Node)
    (h : ∀ x ∈ xs, needV x + 1 ≤ 2 * (_to_string x).length) :
    needL xs ≤ 2 * (joinComma (xs.map _to_string)).length := by
  induction xs with
  | nil => simp [needL, joinComma]
  | cons x r ih =>
    have hx : needV x + 1 ≤ 2 * (_to_string x).length := h x (by simp)
    cases r with
    | nil =>
      simp only [needL, List.map_cons, List.map_nil, joinComma]
      omega
    | cons y r2 =>
      have ihr := ih (fun z hz => h z (by simp at hz ⊢; tauto))
      simp only [needL, List.map_cons, joinComma, List.length_append,
        List.length_cons] at ihr ⊢
      omega

/-- The parser fuel measure is within twice the serialized length. -/
theorem needV_le_ser (n : Nat) : ∀ (v : Node), needV v ≤ n → SafeNode v = true →
    needV v + 1 ≤ 2 * (_to_string v).length := by
  induction n with
  | zero =>
    intro v hn hv
    exact absurd hn (by have := needV_pos v; omega)
  | succ n ih =>
    intro v hn hv
    cases v with
    | tagged t pv =>
      have hser := (ser_facts (needV (.tagged t pv)) _ le_rfl hv).1
      rw [needV]
      have h1 : 1 ≤ (_to_string (.tagged t pv)).length := by
        cases hx : _to_string (.tagged t pv) with
        | nil => exact absurd hx hser
        | cons a b => simp
      omega
    | taggedArr t vs => rw [SafeNode] at hv; simp at hv
    | compound es =>
      rw [SafeNode] at hv
      simp only [Bool.and_eq_true] at hv
      have hmem : ∀ e ∈ es, needV e.2 + 1 ≤ 2 * (_to_string e.2).length := by
        intro e hm
        obtain ⟨k, w⟩ := e
        have hwn : needV w ≤ n := by
          have h1 := needE_mem es k w hm
          rw [needV] at hn
          omega
        exact ih w hwn (SafeEntries_mem es hv.2 k w hm).2
      have hb := needE_bound es hmem
      rw [needV, ser_compound, entry_strings_safe es hv.2]
      simp only [List.length_cons, List.length_append, List.length_singleton]
      omega
    | pylist xs =>
      rw [SafeNode] at hv
      have hmem : ∀ x ∈ xs, needV x + 1 ≤ 2 * (_to_string x).length := by
        intro x hm
        have hwn : needV x ≤ n := by
          have h1 := needL_mem xs x hm
          rw [needV] at hn
          omega
        exact ih x hwn (SafeList_mem xs hv x hm)
      have hb := needL_bound xs hmem
      rw [needV, ser_pylist, to_string_list_eq_map]
      simp only [List.length_cons, List.length_append, List.length_singleton]
      omega

/-- Reading one position inside a known remainder. -/
theorem getD_shift (s : List Char) (i d : Nat) (a : List Char) (h : s.drop i = a) :
    s.getD (i + d) ' ' = a.getD d ' ' := by
  have hd : s.drop (i + d) = a.drop d := by
    have h2 := congrArg (List.drop d) h
    rwa [List.drop_drop] at h2
  cases ha : a.drop d with
  | nil =>
    rw [ha] at hd
    have h1 := drop_nil_len s _ hd
    have h2 := drop_nil_len a _ ha
    rw [List.getD_eq_default _ _ (by omega), List.getD_eq_default _ _ (by omega)]
  | cons c r =>
    rw [ha] at hd
    rw [(drop_cons_getD s _ _ _ hd).1, (drop_cons_getD a _ _ _ ha).1]

/-- An in-range read is a member. -/
theorem getD_mem_of_lt (a : List Char) (d : Nat) (h : d < a.length) :
    a.getD d ' ' ∈ a := by
  induction a generalizing d with
  | nil => simp at h
  | cons c r ih =>
    cases d with
    | zero => simp
    | succ e =>
      simp only [List.getD_cons_succ]
      exact List.mem_cons_of_mem c (ih e (by simpa using h))

/-- Unpacking a safe key: nonempty and over the safe alphabet. -/
theorem safeKey_props (k : String) (h : safeKey k = true) :
    k.data ≠ [] ∧ ∀ c ∈ k.data, safeTextChar c = true := by
  rw [safeKey] at h
  simp only [Bool.and_eq_true, Bool.not_eq_true] at h
  refine ⟨?_, List.all_eq_true.mp h.1.1.2⟩
  intro he
  have h1 := h.1.1.1
  rw [he] at h1
  simp at h1

/-- Inserting a fresh key appends the pair. -/
theorem dictInsert_append (acc : List (String × Node)) (k : String) (v : Node)
    (h : ∀ p ∈ acc, p.1 ≠ k) : dictInsert acc k v = acc ++ [(k, v)] := by
  have hc : acc.any (fun p => p.1 = k) = false := by
    rw [List.any_eq_false]
    intro p hp
    simpa using h p hp
  rw [dictInsert, hc]
  simp

/-- The head key of a duplicate-free entry list is absent from the tail. -/
theorem nodupKeys_head (k : String) (v : Node) (r : List (String × Node))
    (h : nodupKeys ((k, v) :: r) = true) :
    (∀ p ∈ r, p.1 ≠ k) ∧ nodupKeys r = true := by
  rw [nodupKeys] at h
  simp only [Bool.and_eq_true] at h
  obtain ⟨h1, h2⟩ := h
  rw [Bool.not_eq_true'] at h1
  refine ⟨?_, h2⟩
  intro p hp he
  rw [List.any_eq_false] at h1
  have h3 := h1 p hp
  simp [he] at h3

/-- Advancing the cursor past a serialized `key:` prefix. -/
theorem drop_past_key (s : List Char) (i : Nat) (k tail : List Char)
    (h : s.drop i = k ++ ':' :: tail) : s.drop (i + k.length + 1) = tail := by
  have h1 := drop_append s i k (':' :: tail) h
  exact (drop_cons_getD s (i + k.length) ':' tail h1).2.2

/-- Everything the value parser needs about a serialized safe scalar: it
re-classifies to the same tag and value, its characters neither break the
scan nor look like an opener, and it is nonempty. -/
theorem safe_scalar_parse (t : Nat) (pv : PyVal) (hv : SafeNode (.tagged t pv) = true) :
    _parse_simple_value (_to_string (.tagged t pv)) = (pv, t) ∧
    (∀ c ∈ _to_string (.tagged t pv),
      pyIsSpace c = false ∧ c ≠ ',' ∧ c ≠ '\x7d' ∧ c ≠ ']' ∧ c ≠ ':') ∧
    ((_to_string (.tagged t pv)).headD ' ' ≠ '\x7b' ∧
     (_to_string (.tagged t pv)).headD ' ' ≠ '[' ∧
     (_to_string (.tagged t pv)).headD ' ' ≠ '\x27') ∧
    _to_string (.tagged t pv) ≠ [] := by
  cases pv with
  | vNone => simp [SafeNode] at hv
  | vFloat f => simp [SafeNode] at hv
  | vInt mm =>
    simp only [SafeNode, Bool.or_eq_true, beq_iff_eq] at hv
    have ht : t = 1 ∨ t = 2 ∨ t = 3 ∨ t = 4 ∨ t = 5 ∨ t = 6 := by tauto
    obtain ⟨sc, hsc, hmap, hsp, hsemi, hcm, hrb, hsq, hcol, hkc⟩ := suffix_facts t ht
    rw [ser_tagged_int t mm ht, hsc]
    obtain ⟨d, ds, hd⟩ : ∃ d ds, intStr mm = d :: ds := by
      cases hx : intStr mm with
      | nil => exact absurd hx (intStr_ne_nil mm)
      | cons a b => exact ⟨a, b, rfl⟩
    refine ⟨simple_value_int_suffix mm sc t hmap, ?_, ?_, by simp⟩
    · intro c hc
      rcases List.mem_append.mp hc with hc | hc
      · have hcc := intStr_chars mm c hc
        exact ⟨hcc.1, hcc.2.2.2.1, hcc.2.2.2.2.1, hcc.2.2.2.2.2.1, hcc.2.2.2.2.2.2.1⟩
      · simp only [List.mem_singleton] at hc
        subst hc
        exact ⟨hsp, hcm, hrb, hsq, hcol⟩
    · have hdm : d ∈ intStr mm := by rw [hd]; simp
      have hcc := intStr_chars mm d hdm
      rw [hd]
      simp only [List.cons_append, List.headD_cons]
      exact ⟨hcc.2.2.2.2.2.2.2.2.1, hcc.2.2.2.2.2.2.2.2.2.1, hcc.2.2.2.2.2.2.2.2.2.2.1⟩
  | vStr str =>
    simp only [SafeNode, Bool.and_eq_true, beq_iff_eq, Bool.not_eq_true] at hv
    obtain ⟨⟨⟨ht8, hne⟩, hall⟩, hcls⟩ := hv
    subst ht8
    rw [ser_tagged_str str (safe_no_quote str hall)]
    rw [List.all_eq_true] at hall
    obtain ⟨d, ds, hd⟩ : ∃ d ds, str.data = d :: ds := by
      cases hx : str.data with
      | nil => rw [hx] at hne; simp at hne
      | cons a b => exact ⟨a, b, rfl⟩
    refine ⟨hcls, ?_, ?_, by rw [hd]; simp⟩
    · intro c hc
      have h := safeTextChar_props c (hall c hc)
      exact ⟨h.1, h.2.1, h.2.2.1, h.2.2.2.1, h.2.2.2.2.1⟩
    · have h := safeTextChar_props d (hall d (by rw [hd]; simp))
      rw [hd]
      simp only [List.headD_cons]
      exact ⟨h.2.2.2.2.2.2.1, h.2.2.2.2.2.2.2.1, h.2.2.2.2.2.2.2.2.1⟩

/-- The first character of a serialized safe node is never a list closer. -/
theorem ser_head_ne (v : Node) (hv : SafeNode v = true) (c0 : Char) (cs : List Char)
    (h : _to_string v = c0 :: cs) : c0 ≠ ']' := by
  cases v with
  | tagged t pv =>
    cases pv with
    | vNone => simp [SafeNode] at hv
    | vFloat f => simp [SafeNode] at hv
    | vInt mm =>
      simp only [SafeNode, Bool.or_eq_true, beq_iff_eq] at hv
      have ht : t = 1 ∨ t = 2 ∨ t = 3 ∨ t = 4 ∨ t = 5 ∨ t = 6 := by tauto
      rw [ser_tagged_int t mm ht] at h
      obtain ⟨d, ds, hd⟩ : ∃ d ds, intStr mm = d :: ds := by
        cases hx : intStr mm with
        | nil => exact absurd hx (intStr_ne_nil mm)
        | cons a b => exact ⟨a, b, rfl⟩
      rw [hd, List.cons_append] at h
      obtain ⟨he, -⟩ := List.cons_eq_cons.mp h
      rw [← he]
      exact (intStr_chars mm d (by rw [hd]; simp)).2.2.2.2.2.1
    | vStr str =>
      simp only [SafeNode, Bool.and_eq_true, beq_iff_eq, Bool.not_eq_true] at hv
      obtain ⟨⟨⟨ht8, hne⟩, hall⟩, -⟩ := hv
      subst ht8
      rw [ser_tagged_str str (safe_no_quote str hall)] at h
      rw [List.all_eq_true] at hall
      have hm : c0 ∈ str.data := by rw [h]; simp
      exact (safeTextChar_props c0 (hall c0 hm)).2.2.2.1
  | taggedArr t vs => rw [SafeNode] at hv; simp at hv
  | compound es =>
    rw [ser_compound] at h
    obtain ⟨he, -⟩ := List.cons_eq_cons.mp h
    rw [← he]
    decide
  | pylist xs =>
    rw [ser_pylist] at h
    obtain ⟨he, -⟩ := List.cons_eq_cons.mp h
    rw [← he]
    decide

/-- One pass of the compound entry loop over a serialized `key:value` that is
followed by the closing brace. -/
theorem compound_loop_last (m : Nat) (s : List Char) (i : Nat) (k : String) (w : Node)
    (r2 : List Char) (acc : List (String × Node))
    (hk : safeKey k = true)
    (hdisj : ∀ p ∈ acc, p.1 ≠ k)
    (hdrop : s.drop i = (k.data ++ ':' :: _to_string w) ++ '\x7d' :: r2)
    (hval : _parse_value m s (i + k.data.length + 1) =
      .ok (w, i + k.data.length + 1 + (_to_string w).length)) :
    _parse_compound_loop (m + 1) s i acc =
      .ok (acc ++ [(k, w)], i + k.data.length + 1 + (_to_string w).length + 1) := by
  obtain ⟨hkne, hkall⟩ := safeKey_props k hk
  have hdrop1 : s.drop i = k.data ++ ':' :: (_to_string w ++ '\x7d' :: r2) := by
    rw [hdrop]
    simp [List.append_assoc]
  obtain ⟨c0, ks, hk0⟩ : ∃ c0 ks, k.data = c0 :: ks := by
    cases hkd : k.data with
    | nil => exact absurd hkd hkne
    | cons a b => exact ⟨a, b, rfl⟩
  have hilen : i < s.length := by
    have h2 : s.drop i = c0 :: (ks ++ ':' :: (_to_string w ++ '\x7d' :: r2)) := by
      rw [hdrop1, hk0]
      simp
    exact (drop_cons_getD s i _ _ h2).2.1
  have hks : key_scan s i false = i + k.data.length :=
    key_scan_spec s k.data (_to_string w ++ '\x7d' :: r2) i hdrop1
      (fun c hc => ⟨(safeTextChar_props c (hkall c hc)).2.2.2.2.1,
        (safeTextChar_props c (hkall c hc)).2.2.2.2.2.1⟩)
  have hdropc : s.drop (i + k.data.length) = ':' :: (_to_string w ++ '\x7d' :: r2) :=
    drop_append s i _ _ hdrop1
  obtain ⟨hgc, hclen, hdropw⟩ := drop_cons_getD s _ _ _ hdropc
  have htake : (s.drop i).take (i + k.data.length - i) = k.data := by
    rw [hdrop1, show i + k.data.length - i = k.data.length from by omega]
    exact take_append_self _ _
  have hstripk : pyStrip k.data = k.data :=
    pyStrip_eq_self _ (fun c hc => (safeTextChar_props c (hkall c hc)).1)
  have huk : key_unescape k.data = k.data :=
    key_unescape_safe _ (fun c hc => (safeTextChar_props c (hkall c hc)).2.2.2.2.2.1)
  have hdropx : s.drop (i + k.data.length + 1 + (_to_string w).length) = '\x7d' :: r2 :=
    drop_append s _ _ _ hdropw
  obtain ⟨hgx, hxlen, -⟩ := drop_cons_getD s _ _ _ hdropx
  have hskip2 : skip_whitespace s (i + k.data.length + 1 + (_to_string w).length) =
      i + k.data.length + 1 + (_to_string w).length :=
    skip_whitespace_cons s _ _ _ hdropx (by decide)
  have hins : dictInsert acc (String.mk k.data) w = acc ++ [(k, w)] := by
    have hmk : String.mk k.data = k := rfl
    rw [hmk]
    exact dictInsert_append acc k w hdisj
  rw [_parse_compound_loop, if_pos hilen]
  simp only [hks]
  rw [if_neg (by push_neg; exact ⟨by omega, hgc⟩)]
  simp only [htake, hstripk, huk, hval, hins, hskip2]
  rw [if_pos ⟨by omega, hgx⟩]

/-- One pass of the compound entry loop over a serialized `key:value` that is
followed by a comma: the loop moves past the comma with the entry recorded. -/
theorem compound_loop_cont (m : Nat) (s : List Char) (i : Nat) (k : String) (w : Node)
    (r2 : List Char) (acc : List (String × Node))
    (hk : safeKey k = true)
    (hdisj : ∀ p ∈ acc, p.1 ≠ k)
    (hdrop : s.drop i = (k.data ++ ':' :: _to_string w) ++ ',' :: r2)
    (hval : _parse_value m s (i + k.data.length + 1) =
      .ok (w, i + k.data.length + 1 + (_to_string w).length)) :
    _parse_compound_loop (m + 1) s i acc =
      _parse_compound_loop m s (i + k.data.length + 1 + (_to_string w).length + 1)
        (acc ++ [(k, w)]) := by
  obtain ⟨hkne, hkall⟩ := safeKey_props k hk
  have hdrop1 : s.drop i = k.data ++ ':' :: (_to_string w ++ ',' :: r2) := by
    rw [hdrop]
    simp [List.append_assoc]
  obtain ⟨c0, ks, hk0⟩ : ∃ c0 ks, k.data = c0 :: ks := by
    cases hkd : k.data with
    | nil => exact absurd hkd hkne
    | cons a b => exact ⟨a, b, rfl⟩
  have hilen : i < s.length := by
    have h2 : s.drop i = c0 :: (ks ++ ':' :: (_to_string w ++ ',' :: r2)) := by
      rw [hdrop1, hk0]
      simp
    exact (drop_cons_getD s i _ _ h2).2.1
  have hks : key_scan s i false = i + k.data.length :=
    key_scan_spec s k.data (_to_string w ++ ',' :: r2) i hdrop1
      (fun c hc => ⟨(safeTextChar_props c (hkall c hc)).2.2.2.2.1,
        (safeTextChar_props c (hkall c hc)).2.2.2.2.2.1⟩)
  have hdropc : s.drop (i + k.data.length) = ':' :: (_to_string w ++ ',' :: r2) :=
    drop_append s i _ _ hdrop1
  obtain ⟨hgc, hclen, hdropw⟩ := drop_cons_getD s _ _ _ hdropc
  have htake : (s.drop i).take (i + k.data.length - i) = k.data := by
    rw [hdrop1, show i + k.data.length - i = k.data.length from by omega]
    exact take_append_self _ _
  have hstripk : pyStrip k.data = k.data :=
    pyStrip_eq_self _ (fun c hc => (safeTextChar_props c (hkall c hc)).1)
  have huk : key_unescape k.data = k.data :=
    key_unescape_safe _ (fun c hc => (safeTextChar_props c (hkall c hc)).2.2.2.2.2.1)
  have hdropx : s.drop (i + k.data.length + 1 + (_to_string w).length) = ',' :: r2 :=
    drop_append s _ _ _ hdropw
  obtain ⟨hgx, hxlen, -⟩ := drop_cons_getD s _ _ _ hdropx
  have hskip2 : skip_whitespace s (i + k.data.length + 1 + (_to_string w).length) =
      i + k.data.length + 1 + (_to_string w).length :=
    skip_whitespace_cons s _ _ _ hdropx (by decide)
  have hins : dictInsert acc (String.mk k.data) w = acc ++ [(k, w)] := by
    have hmk : String.mk k.data = k := rfl
    rw [hmk]
    exact dictInsert_append acc k w hdisj
  rw [_parse_compound_loop, if_pos hilen]
  simp only [hks]
  rw [if_neg (by push_neg; exact ⟨by omega, hgc⟩)]
  simp only [htake, hstripk, huk, hval, hins, hskip2]
  rw [if_neg (by rintro ⟨-, hbad⟩; rw [hgx] at hbad; exact absurd hbad (by decide))]
  rw [if_pos ⟨by omega, hgx⟩]

/-- One pass of the list element loop over a serialized element that is
followed by the closing bracket. -/
theorem list_loop_last (m : Nat) (s : List Char) (i : Nat) (x : Node) (r2 : List Char)
    (acc : List Node)
    (hx : SafeNode x = true)
    (hdrop : s.drop i = _to_string x ++ ']' :: r2)
    (hval : _parse_value m s i = .ok (x, i + (_to_string x).length)) :
    _parse_list_loop (m + 1) s i acc = .ok (acc ++ [x], i + (_to_string x).length + 1) := by
  obtain ⟨hser, -⟩ := ser_facts (needV x) x le_rfl hx
  obtain ⟨c0, cs, hc0⟩ : ∃ c0 cs, _to_string x = c0 :: cs := by
    cases hx2 : _to_string x with
    | nil => exact absurd hx2 hser
    | cons a b => exact ⟨a, b, rfl⟩
  have hilen : i < s.length := by
    have h2 : s.drop i = c0 :: (cs ++ ']' :: r2) := by
      rw [hdrop, hc0]
      simp
    exact (drop_cons_getD s i _ _ h2).2.1
  have hdropx : s.drop (i + (_to_string x).length) = ']' :: r2 :=
    drop_append s _ _ _ hdrop
  obtain ⟨hgx, hxlen, -⟩ := drop_cons_getD s _ _ _ hdropx
  have hskip2 : skip_whitespace s (i + (_to_string x).length) =
      i + (_to_string x).length :=
    skip_whitespace_cons s _ _ _ hdropx (by decide)
  rw [_parse_list_loop, if_pos hilen]
  simp only [hval, hskip2]
  rw [if_pos ⟨by omega, hgx⟩]

/-- One pass of the list element loop over a serialized element that is
followed by a comma: the loop moves past the comma with the element
recorded. -/
theorem list_loop_cont (m : Nat) (s : List Char) (i : Nat) (x : Node) (r2 : List Char)
    (acc : List Node)
    (hx : SafeNode x = true)
    (hdrop : s.drop i = _to_string x ++ ',' :: r2)
    (hval : _parse_value m s i = .ok (x, i + (_to_string x).length)) :
    _parse_list_loop (m + 1) s i acc =
      _parse_list_loop m s (i + (_to_string x).length + 1) (acc ++ [x]) := by
  obtain ⟨hser, -⟩ := ser_facts (needV x) x le_rfl hx
  obtain ⟨c0, cs, hc0⟩ : ∃ c0 cs, _to_string x = c0 :: cs := by
    cases hx2 : _to_string x with
    | nil => exact absurd hx2 hser
    | cons a b => exact ⟨a, b, rfl⟩
  have hilen : i < s.length := by
    have h2 : s.drop i = c0 :: (cs ++ ',' :: r2) := by
      rw [hdrop, hc0]
      simp
    exact (drop_cons_getD s i _ _ h2).2.1
  have hdropx : s.drop (i + (_to_string x).length) = ',' :: r2 :=
    drop_append s _ _ _ hdrop
  obtain ⟨hgx, hxlen, -⟩ := drop_cons_getD s _ _ _ hdropx
  have hskip2 : skip_whitespace s (i + (_to_string x).length) =
      i + (_to_string x).length :=
    skip_whitespace_cons s _ _ _ hdropx (by decide)
  rw [_parse_list_loop, if_pos hilen]
  simp only [hval, hskip2]
  rw [if_neg (by rintro ⟨-, hbad⟩; rw [hgx] at hbad; exact absurd hbad (by decide))]
  rw [if_pos ⟨by omega, hgx⟩]

/-- Splitting a comma join at its first piece. -/
theorem joinComma_cons (a : List Char) (L : List (List Char)) :
    (L = [] ∧ joinComma (a :: L) = a) ∨
    (∃ b L2, L = b :: L2 ∧ joinComma (a :: L) = a ++ ',' :: joinComma (b :: L2)) := by
  cases L with
  | nil => exact Or.inl ⟨rfl, rfl⟩
  | cons b L2 => exact Or.inr ⟨b, L2, rfl, rfl⟩

/-- The round-trip master lemma: on serialized safe input the recursive
parser returns exactly the serialized node, and each container loop returns
its accumulated entries/elements with the cursor just past the closer. -/
theorem parse_ser (n : Nat) :
    (∀ (v : Node) (s : List Char) (i : Nat) (rest : List Char),
      SafeNode v = true → s.drop i = _to_string v ++ rest → stopRest rest →
      needV v ≤ n → _parse_value n s i = .ok (v, i + (_to_string v).length)) ∧
    (∀ (es : List (String × Node)) (s : List Char) (i : Nat) (rest : List Char)
      (acc : List (String × Node)),
      es ≠ [] → nodupKeys es = true → SafeEntries es = true →
      (∀ e ∈ es, ∀ p ∈ acc, p.1 ≠ e.1) →
      s.drop i = joinComma (es.map (fun e => e.1.data ++ ':' :: _to_string e.2)) ++
        '\x7d' :: rest →
      needE es ≤ n →
      _parse_compound_loop n s i acc =
        .ok (acc ++ es,
          i + (joinComma (es.map (fun e => e.1.data ++ ':' :: _to_string e.2))).length
            + 1)) ∧
    (∀ (xs : List Node) (s : List Char) (i : Nat) (rest : List Char) (acc : List Node),
      xs ≠ [] → SafeList xs = true →
      s.drop i = joinComma (xs.map _to_string) ++ ']' :: rest →
      needL xs ≤ n →
      _parse_list_loop n s i acc =
        .ok (acc ++ xs, i + (joinComma (xs.map _to_string)).length + 1)) := by
  induction n using Nat.strong_induction_on with
  | h n ih =>
  refine ⟨?_, ?_, ?_⟩
  · -- values
    intro v s i rest hv hdrop hstop hn
    obtain ⟨m, rfl⟩ : ∃ m, n = m + 1 := ⟨n - 1, by have := needV_pos v; omega⟩
    cases v with
    | taggedArr t vs => rw [SafeNode] at hv; simp at hv
    | tagged t pv =>
      obtain ⟨hpsv, hcore, hhead, hne0⟩ := safe_scalar_parse t pv hv
      have hres := parse_value_scalar m s i (_to_string (.tagged t pv)) rest hdrop hne0
        hcore hhead (Or.inl hstop)
      rw [hres, hpsv]
    | compound es =>
      rw [SafeNode] at hv
      simp only [Bool.and_eq_true] at hv
      have hdrop2 : s.drop i =
          '\x7b' :: (joinComma (es.map (fun e => e.1.data ++ ':' :: _to_string e.2)) ++
            '\x7d' :: rest) := by
        rw [hdrop, ser_compound, entry_strings_safe es hv.2]
        simp
      obtain ⟨h1, h2, h3⟩ := drop_cons_getD s i _ _ hdrop2
      have hskip : skip_whitespace s i = i :=
        skip_whitespace_cons s i _ _ hdrop2 (by decide)
      have hlen2 : (_to_string (.compound es)).length =
          (joinComma (es.map (fun e => e.1.data ++ ':' :: _to_string e.2))).length + 2 := by
        rw [ser_compound, entry_strings_safe es hv.2]
        simp
      obtain ⟨m2, rfl⟩ : ∃ m2, m = m2 + 1 := by
        refine ⟨m - 1, ?_⟩
        rw [needV] at hn
        omega
      rw [_parse_value]
      simp only [hskip, h1]
      rw [if_neg (by omega)]
      simp only [if_true]
      cases es with
      | nil =>
        have h3n : s.drop (i + 1) = '\x7d' :: rest := by
          simpa [joinComma] using h3
        have hskip3 : skip_whitespace s (i + 1) = i + 1 :=
          skip_whitespace_cons s (i + 1) _ _ h3n (by decide)
        obtain ⟨hg3, hl3, -⟩ := drop_cons_getD s (i + 1) _ _ h3n
        rw [_parse_compound]
        simp only [hskip3]
        rw [if_pos (Or.inr hg3)]
        simp only [List.map_nil, joinComma, List.length_nil, hlen2, Except.ok.injEq,
          Prod.mk.injEq]
      | cons e r =>
        obtain ⟨k, w⟩ := e
        have hmem0 := SafeEntries_mem _ hv.2 k w (by simp)
        obtain ⟨hkne0, hkall0⟩ := safeKey_props k hmem0.1
        obtain ⟨d0, ks0, hkd⟩ : ∃ d0 ks0, k.data = d0 :: ks0 := by
          cases hx : k.data with
          | nil => exact absurd hx hkne0
          | cons a b => exact ⟨a, b, rfl⟩
        simp only [List.map_cons] at h3
        have hJA : ∃ A, joinComma ((k.data ++ ':' :: _to_string w) ::
            r.map (fun e => e.1.data ++ ':' :: _to_string e.2)) =
            (k.data ++ ':' :: _to_string w) ++ A := by
          rcases joinComma_cons (k.data ++ ':' :: _to_string w)
              (r.map (fun e => e.1.data ++ ':' :: _to_string e.2)) with
            ⟨-, hJ0⟩ | ⟨b0, L20, -, hJ0⟩
          · exact ⟨[], by simp [hJ0]⟩
          · exact ⟨',' :: joinComma (b0 :: L20), hJ0⟩
        obtain ⟨A0, hJ0⟩ := hJA
        have hdropJ : s.drop (i + 1) =
            d0 :: (ks0 ++ ':' :: (_to_string w ++ (A0 ++ '\x7d' :: rest))) := by
          rw [h3, hJ0, hkd]
          simp [List.append_assoc]
        obtain ⟨hg1, hl1, -⟩ := drop_cons_getD s (i + 1) _ _ hdropJ
        have hd0safe := safeTextChar_props d0 (hkall0 d0 (by rw [hkd]; simp))
        have hskipJ : skip_whitespace s (i + 1) = i + 1 :=
          skip_whitespace_cons s (i + 1) _ _ hdropJ hd0safe.1
        rw [_parse_compound]
        simp only [hskipJ, hg1]
        rw [if_neg (by push_neg; exact ⟨by omega, hd0safe.2.2.1⟩)]
        have hloop := (ih m2 (by omega)).2.1 ((k, w) :: r) s (i + 1) rest []
          (by simp) hv.1 hv.2 (by intro e2 he2 p hp; simp at hp) h3
          (by rw [needV] at hn; omega)
        simp only [List.map_cons] at hloop
        rw [hloop]
        simp only [List.map_cons] at hlen2
        simp only [List.nil_append, hlen2, Except.ok.injEq, Prod.mk.injEq]
        refine ⟨by trivial, by omega⟩
    | pylist xs =>
      rw [SafeNode] at hv
      have hdrop2 : s.drop i =
          '[' :: (joinComma (xs.map _to_string) ++ ']' :: rest) := by
        rw [hdrop, ser_pylist, to_string_list_eq_map]
        simp
      obtain ⟨h1, h2, h3⟩ := drop_cons_getD s i _ _ hdrop2
      have hskip : skip_whitespace s i = i :=
        skip_whitespace_cons s i _ _ hdrop2 (by decide)
      have hlen2 : (_to_string (.pylist xs)).length =
          (joinComma (xs.map _to_string)).length + 2 := by
        rw [ser_pylist, to_string_list_eq_map]
        simp
      obtain ⟨m2, rfl⟩ : ∃ m2, m = m2 + 1 := by
        refine ⟨m - 1, ?_⟩
        rw [needV] at hn
        omega
      rw [_parse_value]
      simp only [hskip, h1]
      rw [if_neg (by omega), if_neg (by decide)]
      simp only [if_true]
      cases xs with
      | nil =>
        have h3n : s.drop (i + 1) = ']' :: rest := by
          simpa [joinComma] using h3
        have hpeek : pyLStrip (s.drop (i + 1)) = ']' :: rest := by
          rw [h3n]
          exact pyLStrip_cons _ _ (by decide)
        have hrest2 : ∀ t2, rest ≠ ';' :: t2 := by
          intro t2 ht2
          rcases hstop with rfl | ⟨r0, hr0 | hr0 | hr0⟩
          · simp at ht2
          · rw [hr0] at ht2
            exact absurd (List.cons_eq_cons.mp ht2).1 (by decide)
          · rw [hr0] at ht2
            exact absurd (List.cons_eq_cons.mp ht2).1 (by decide)
          · rw [hr0] at ht2
            exact absurd (List.cons_eq_cons.mp ht2).1 (by decide)
        simp only [hpeek]
        rw [if_neg (marker_prefix_false ']' rest hrest2)]
        have hskip3 : skip_whitespace s (i + 1) = i + 1 :=
          skip_whitespace_cons s (i + 1) _ _ h3n (by decide)
        obtain ⟨hg3, hl3, -⟩ := drop_cons_getD s (i + 1) _ _ h3n
        rw [_parse_list]
        simp only [hskip3]
        rw [if_pos (Or.inr hg3)]
        simp only [List.map_nil, joinComma, List.length_nil, hlen2, Except.ok.injEq,
          Prod.mk.injEq]
      | cons x1 rl =>
        have hx1 : SafeNode x1 = true := SafeList_mem _ hv x1 (by simp)
        obtain ⟨hser1, hserch⟩ := ser_facts (needV x1) x1 le_rfl hx1
        obtain ⟨c1, cs1, hc1⟩ : ∃ c1 cs1, _to_string x1 = c1 :: cs1 := by
          cases hx2 : _to_string x1 with
          | nil => exact absurd hx2 hser1
          | cons a b => exact ⟨a, b, rfl⟩
        simp only [List.map_cons] at h3
        have hJA : ∃ A, joinComma (_to_string x1 :: rl.map _to_string) =
            _to_string x1 ++ A ∧ (A = [] ∨ ∃ J2, A = ',' :: J2) := by
          rcases joinComma_cons (_to_string x1) (rl.map _to_string) with
            ⟨-, hJ0⟩ | ⟨b0, L20, -, hJ0⟩
          · exact ⟨[], by simp [hJ0], Or.inl rfl⟩
          · exact ⟨',' :: joinComma (b0 :: L20), hJ0, Or.inr ⟨_, rfl⟩⟩
        obtain ⟨A0, hJ0, hAshape⟩ := hJA
        have hdropJ : s.drop (i + 1) = c1 :: (cs1 ++ (A0 ++ ']' :: rest)) := by
          rw [h3, hJ0, hc1]
          simp [List.append_assoc]
        have hc1safe : pyIsSpace c1 = false ∧ c1 ≠ ';' :=
          hserch c1 (by rw [hc1]; simp)
        have hpeek : pyLStrip (s.drop (i + 1)) = c1 :: (cs1 ++ (A0 ++ ']' :: rest)) := by
          rw [hdropJ]
          exact pyLStrip_cons _ _ hc1safe.1
        have hnosemi : ∀ t2, cs1 ++ (A0 ++ ']' :: rest) ≠ ';' :: t2 := by
          intro t2 ht2
          cases hcs : cs1 with
          | nil =>
            rw [hcs, List.nil_append] at ht2
            rcases hAshape with rfl | ⟨J2, rfl⟩
            · rw [List.nil_append] at ht2
              exact absurd (List.cons_eq_cons.mp ht2).1 (by decide)
            · rw [List.cons_append] at ht2
              exact absurd (List.cons_eq_cons.mp ht2).1 (by decide)
          | cons d2 ds2 =>
            rw [hcs, List.cons_append] at ht2
            have hd2 : d2 ∈ _to_string x1 := by rw [hc1, hcs]; simp
            exact absurd (List.cons_eq_cons.mp ht2).1 (hserch d2 hd2).2
        obtain ⟨hg1, hl1, -⟩ := drop_cons_getD s (i + 1) _ _ hdropJ
        have hskipJ : skip_whitespace s (i + 1) = i + 1 :=
          skip_whitespace_cons s (i + 1) _ _ hdropJ hc1safe.1
        have hc1ne : c1 ≠ ']' := ser_head_ne x1 hx1 c1 cs1 hc1
        simp only [hpeek]
        rw [if_neg (marker_prefix_false c1 _ hnosemi)]
        rw [_parse_list]
        simp only [hskipJ, hg1]
        rw [if_neg (by push_neg; exact ⟨by omega, hc1ne⟩)]
        have hloop := (ih m2 (by omega)).2.2 (x1 :: rl) s (i + 1) rest []
          (by simp) hv h3 (by rw [needV] at hn; omega)
        simp only [List.map_cons] at hloop
        rw [hloop]
        simp only [List.map_cons] at hlen2
        simp only [List.nil_append, hlen2, Except.ok.injEq, Prod.mk.injEq]
        refine ⟨by trivial, by omega⟩
  · -- compound entry loop
    intro es s i rest acc hne hnd hse hdisj hdrop hn
    cases es with
    | nil => exact absurd rfl hne
    | cons e r =>
      obtain ⟨k, w⟩ := e
      rw [SafeEntries] at hse
      simp only [Bool.and_eq_true] at hse
      obtain ⟨⟨hk, hw⟩, hser⟩ := hse
      obtain ⟨hnd1, hnd2⟩ := nodupKeys_head k w r hnd
      rw [needE] at hn
      obtain ⟨m, rfl⟩ : ∃ m, n = m + 1 := ⟨n - 1, by have := needV_pos w; omega⟩
      simp only [List.map_cons] at hdrop ⊢
      cases r with
      | nil =>
        simp only [List.map_nil, joinComma] at hdrop ⊢
        have hdropw : s.drop (i + k.data.length + 1) =
            _to_string w ++ '\x7d' :: rest := by
          apply drop_past_key
          rw [hdrop]
          simp [List.append_assoc]
        have hval := (ih m (by omega)).1 w s (i + k.data.length + 1) ('\x7d' :: rest) hw
          hdropw (Or.inr ⟨rest, Or.inr (Or.inl rfl)⟩)
          (by simp only [needE] at hn; omega)
        have hstep := compound_loop_last m s i k w rest acc hk
          (fun p hp => hdisj (k, w) (by simp) p hp) hdrop hval
        rw [hstep]
        simp only [List.length_append, List.length_cons, Except.ok.injEq, Prod.mk.injEq]
        refine ⟨by trivial, by omega⟩
      | cons y r2 =>
        obtain ⟨k2, w2⟩ := y
        simp only [List.map_cons, joinComma] at hdrop ⊢
        have hdropr : s.drop i = (k.data ++ ':' :: _to_string w) ++
            ',' :: (joinComma ((k2.data ++ ':' :: _to_string w2) ::
              r2.map (fun e => e.1.data ++ ':' :: _to_string e.2)) ++ '\x7d' :: rest) := by
          rw [hdrop]
          simp [List.append_assoc]
        have hdropw : s.drop (i + k.data.length + 1) = _to_string w ++
            ',' :: (joinComma ((k2.data ++ ':' :: _to_string w2) ::
              r2.map (fun e => e.1.data ++ ':' :: _to_string e.2)) ++ '\x7d' :: rest) := by
          apply drop_past_key
          rw [hdropr]
          simp [List.append_assoc]
        have hval := (ih m (by omega)).1 w s (i + k.data.length + 1) _ hw
          hdropw (Or.inr ⟨_, Or.inl rfl⟩) (by omega)
        have hstep := compound_loop_cont m s i k w _ acc hk
          (fun p hp => hdisj (k, w) (by simp) p hp) hdropr hval
        rw [hstep]
        have hd1 : s.drop (i + k.data.length + 1 + (_to_string w).length) =
            ',' :: (joinComma ((k2.data ++ ':' :: _to_string w2) ::
              r2.map (fun e => e.1.data ++ ':' :: _to_string e.2)) ++ '\x7d' :: rest) :=
          drop_append s _ _ _ hdropw
        have hd2 := (drop_cons_getD s _ _ _ hd1).2.2
        have hdisj2 : ∀ e2 ∈ (k2, w2) :: r2, ∀ p ∈ acc ++ [(k, w)], p.1 ≠ e2.1 := by
          intro e2 he2 p hp
          rcases List.mem_append.mp hp with hp | hp
          · exact hdisj e2 (List.mem_cons_of_mem _ he2) p hp
          · simp only [List.mem_singleton] at hp
            subst hp
            exact fun hbad => hnd1 e2 he2 hbad.symm
        have hloop := (ih m (by omega)).2.1 ((k2, w2) :: r2) s
          (i + k.data.length + 1 + (_to_string w).length + 1) rest (acc ++ [(k, w)])
          (by simp) hnd2 hser hdisj2 hd2 (by omega)
        simp only [List.map_cons] at hloop
        rw [hloop]
        simp only [Except.ok.injEq, Prod.mk.injEq, List.length_append, List.length_cons]
        constructor
        · simp
        · omega
  · -- list element loop
    intro xs s i rest acc hne hsl hdrop hn
    cases xs with
    | nil => exact absurd rfl hne
    | cons x r =>
      rw [SafeList] at hsl
      simp only [Bool.and_eq_true] at hsl
      obtain ⟨hx, hsr⟩ := hsl
      rw [needL] at hn
      obtain ⟨m, rfl⟩ : ∃ m, n = m + 1 := ⟨n - 1, by have := needV_pos x; omega⟩
      simp only [List.map_cons] at hdrop ⊢
      cases r with
      | nil =>
        simp only [List.map_nil, joinComma] at hdrop ⊢
        have hval := (ih m (by omega)).1 x s i (']' :: rest) hx hdrop
          (Or.inr ⟨rest, Or.inr (Or.inr rfl)⟩) (by simp only [needL] at hn; omega)
        have hstep := list_loop_last m s i x rest acc hx hdrop hval
        rw [hstep]
      | cons y r2 =>
        simp only [List.map_cons, joinComma] at hdrop ⊢
        have hdropr : s.drop i = _to_string x ++
            ',' :: (joinComma (_to_string y :: r2.map _to_string) ++ ']' :: rest) := by
          rw [hdrop]
          simp [List.append_assoc]
        have hval := (ih m (by omega)).1 x s i _ hx hdropr (Or.inr ⟨_, Or.inl rfl⟩)
          (by omega)
        have hstep := list_loop_cont m s i x _ acc hx hdropr hval
        rw [hstep]
        have hd1 : s.drop (i + (_to_string x).length) =
            ',' :: (joinComma (_to_string y :: r2.map _to_string) ++ ']' :: rest) :=
          drop_append s _ _ _ hdropr
        have hd2 := (drop_cons_getD s _ _ _ hd1).2.2
        have hloop := (ih m (by omega)).2.2 (y :: r2) s (i + (_to_string x).length + 1)
          rest (acc ++ [x]) (by simp) hsr hd2 (by omega)
        simp only [List.map_cons] at hloop
        rw [hloop]
        simp only [Except.ok.injEq, Prod.mk.injEq, List.length_append, List.length_cons]
        constructor
        · simp
        · omega

/-- The bare top-level key regex matched against a serialized safe
`key:value` pair captures exactly the key, ending just past the colon:
either the greedy class run stops right at the value (container or negative
number) and backtracking finds the separating colon, or it swallows the
whole scalar and backtracking still returns to the unique colon. -/
theorem topKeyMatch_ser (k : String) (w : Node) (hk : safeKey k = true)
    (hw : SafeNode w = true) :
    topKeyMatch (k.data ++ ':' :: _to_string w) = some (k.data, k.data.length + 1) := by
  obtain ⟨hkne, hkall⟩ := safeKey_props k hk
  obtain ⟨hwne, hwch⟩ := ser_facts (needV w) w le_rfl hw
  obtain ⟨c1, cs1, hc1⟩ : ∃ c1 cs1, _to_string w = c1 :: cs1 := by
    cases hx : _to_string w with
    | nil => exact absurd hx hwne
    | cons a b => exact ⟨a, b, rfl⟩
  have hkkey : ∀ c ∈ k.data, isKeyChar c = true := fun c hc =>
    (safeTextChar_props c (hkall c hc)).2.2.2.2.2.2.2.2.2.2.2.2.2.2
  have hkcol : ∀ c ∈ k.data, c ≠ ':' := fun c hc =>
    (safeTextChar_props c (hkall c hc)).2.2.2.2.1
  have hdropk : (k.data ++ ':' :: _to_string w).drop k.data.length =
      ':' :: _to_string w := by
    have h2 := drop_append (k.data ++ ':' :: _to_string w) 0 k.data
      (':' :: _to_string w) (by simp)
    simpa using h2
  have hgk : (k.data ++ ':' :: _to_string w).getD k.data.length ' ' = ':' :=
    (drop_cons_getD _ _ _ _ hdropk).1
  have hklen : k.data.length < (k.data ++ ':' :: _to_string w).length :=
    (drop_cons_getD _ _ _ _ hdropk).2.1
  have hdropv : (k.data ++ ':' :: _to_string w).drop (k.data.length + 1) =
      _to_string w :=
    (drop_cons_getD _ _ _ _ hdropk).2.2
  have hlen : (k.data ++ ':' :: _to_string w).length =
      k.data.length + 1 + (_to_string w).length := by
    simp only [List.length_append, List.length_cons]
    omega
  have hk0 : k.data.length ≠ 0 := fun h0 => hkne (List.length_eq_zero.mp h0)
  have htake : (k.data ++ ':' :: _to_string w).take k.data.length = k.data :=
    take_append_self k.data _
  have hstripk : pyStrip k.data = k.data :=
    pyStrip_eq_self _ (fun c hc => (safeTextChar_props c (hkall c hc)).1)
  have hcases : (∀ c ∈ _to_string w, isKeyChar c = true ∧ c ≠ ':') ∨
      isKeyChar c1 = false := by
    cases w with
    | tagged t pv =>
      cases pv with
      | vNone => simp [SafeNode] at hw
      | vFloat f => simp [SafeNode] at hw
      | vInt mm =>
        simp only [SafeNode, Bool.or_eq_true, beq_iff_eq] at hw
        have ht : t = 1 ∨ t = 2 ∨ t = 3 ∨ t = 4 ∨ t = 5 ∨ t = 6 := by tauto
        obtain ⟨sc, hsc, -, -, -, -, -, -, hcol, hkc⟩ := suffix_facts t ht
        by_cases hneg : mm < 0
        · right
          have hser2 : _to_string (.tagged t (.vInt mm)) =
              '-' :: (natStr mm.natAbs ++ [sc]) := by
            rw [ser_tagged_int t mm ht, hsc, intStr, if_pos hneg]
            simp
          rw [hc1] at hser2
          obtain ⟨he, -⟩ := List.cons_eq_cons.mp hser2
          rw [he]
          decide
        · left
          intro c hc
          rw [ser_tagged_int t mm ht, hsc] at hc
          rcases List.mem_append.mp hc with hc | hc
          · rw [intStr, if_neg hneg] at hc
            obtain ⟨d, hd, rfl⟩ := natStr_chars _ c hc
            have base : ∀ d, d < 10 →
                isKeyChar (digitChar d) = true ∧ digitChar d ≠ ':' := by decide
            exact base d hd
          · simp only [List.mem_singleton] at hc
            subst hc
            exact ⟨hkc, hcol⟩
      | vStr str =>
        left
        simp only [SafeNode, Bool.and_eq_true, beq_iff_eq, Bool.not_eq_true] at hw
        obtain ⟨⟨⟨ht8, hne8⟩, hall8⟩, -⟩ := hw
        subst ht8
        rw [ser_tagged_str str (safe_no_quote str hall8)]
        rw [List.all_eq_true] at hall8
        intro c hc
        have hp := safeTextChar_props c (hall8 c hc)
        exact ⟨hp.2.2.2.2.2.2.2.2.2.2.2.2.2.2, hp.2.2.2.2.1⟩
    | taggedArr t vs => rw [SafeNode] at hw; simp at hw
    | compound es2 =>
      right
      have hser2 := ser_compound es2
      rw [hc1] at hser2
      obtain ⟨he, -⟩ := List.cons_eq_cons.mp hser2
      rw [he]
      decide
    | pylist xs =>
      right
      have hser2 := ser_pylist xs
      rw [hc1] at hser2
      obtain ⟨he, -⟩ := List.cons_eq_cons.mp hser2
      rw [he]
      decide
  rw [topKeyMatch]
  rcases hcases with hall | hstop1
  · have hrun : class_run (k.data ++ ':' :: _to_string w) 0 =
        (k.data ++ ':' :: _to_string w).length := by
      have h2 := class_run_spec (k.data ++ ':' :: _to_string w)
        (k.data ++ ':' :: _to_string w) [] 0 (by simp) ?_ (Or.inl rfl)
      · simpa using h2
      · intro c hc
        rcases List.mem_append.mp hc with hc | hc
        · exact hkkey c hc
        · rcases List.mem_cons.mp hc with rfl | hc2
          · decide
          · exact (hall c hc2).1
    simp only [hrun]
    rw [if_neg (by omega)]
    have hskipend : skip_whitespace (k.data ++ ':' :: _to_string w)
        ((k.data ++ ':' :: _to_string w).length) =
        (k.data ++ ':' :: _to_string w).length :=
      skip_whitespace_nil _ _ le_rfl
    simp only [hskipend]
    rw [if_neg (by rintro ⟨hlt, -⟩; omega)]
    have hlcb : lastColonBefore (k.data ++ ':' :: _to_string w)
        ((k.data ++ ':' :: _to_string w).length) = some k.data.length := by
      apply lastColonBefore_spec _ k.data.length _ (by omega) hgk
      intro j hj1 hj2
      have hd : (k.data ++ ':' :: _to_string w).getD j ' ' =
          (_to_string w).getD (j - (k.data.length + 1)) ' ' := by
        have h2 := getD_shift _ (k.data.length + 1) (j - (k.data.length + 1)) _ hdropv
        rwa [show k.data.length + 1 + (j - (k.data.length + 1)) = j from by omega] at h2
      rw [hd]
      have hjlt : j - (k.data.length + 1) < (_to_string w).length := by
        rw [hlen] at hj2
        omega
      exact (hall _ (getD_mem_of_lt _ _ hjlt)).2
    simp only [hlcb]
    rw [if_neg hk0]
    simp only [htake, hstripk]
  · have hrun : class_run (k.data ++ ':' :: _to_string w) 0 = k.data.length + 1 := by
      have h2 := class_run_spec (k.data ++ ':' :: _to_string w)
        (k.data ++ [':']) (_to_string w) 0 (by simp) ?_
        (Or.inr ⟨c1, cs1, hc1, hstop1⟩)
      · simpa using h2
      · intro c hc
        rcases List.mem_append.mp hc with hc | hc
        · exact hkkey c hc
        · simp only [List.mem_singleton] at hc
          subst hc
          decide
    simp only [hrun]
    rw [if_neg (by omega)]
    have hdropv1 : (k.data ++ ':' :: _to_string w).drop (k.data.length + 1) =
        c1 :: cs1 := by
      rw [hdropv, hc1]
    have hskipv : skip_whitespace (k.data ++ ':' :: _to_string w)
        (k.data.length + 1) = k.data.length + 1 :=
      skip_whitespace_cons _ _ c1 cs1 hdropv1 (hwch c1 (by rw [hc1]; simp)).1
    simp only [hskipv]
    have hg1 : (k.data ++ ':' :: _to_string w).getD (k.data.length + 1) ' ' = c1 :=
      (drop_cons_getD _ _ _ _ hdropv1).1
    have hc1col : c1 ≠ ':' := by
      intro he
      rw [he] at hstop1
      simp [isKeyChar] at hstop1
    rw [if_neg (by rintro ⟨-, hcc⟩; rw [hg1] at hcc; exact hc1col hcc)]
    have hlcb : lastColonBefore (k.data ++ ':' :: _to_string w)
        (k.data.length + 1) = some k.data.length :=
      lastColonBefore_spec _ k.data.length _ (by omega) hgk (fun j h1 h2 => by omega)
    simp only [hlcb]
    rw [if_neg hk0]
    simp only [htake, hstripk]

/-- C1 (amended): on the round-trip class — compounds with distinct safe
keys whose values are integer scalars under suffixed numeric tags, string
scalars over the safe alphabet that re-classify as strings, nested such
compounds, or plain lists of such nodes — serializing with
`api_to_readable` and re-parsing returns exactly the original entry list,
in order.  (Outside this class round-tripping fails; see
`C1_counterexample`.) -/
theorem C1_roundtrip_safe (es : List (String × Node))
    (h : SafeNode (.compound es) = true) :
    parseChars (api_to_readable (.compound es)) = .ok es := by
  cases es with
  | nil => rfl
  | cons e1 r1 =>
    obtain ⟨k1, w1⟩ := e1
    cases r1 with
    | nil =>
      rw [SafeNode] at h
      simp only [Bool.and_eq_true] at h
      obtain ⟨hk, hw⟩ := SafeEntries_mem _ h.2 k1 w1 (by simp)
      obtain ⟨hkne, hkall⟩ := safeKey_props k1 hk
      obtain ⟨hwne, hwch⟩ := ser_facts (needV w1) w1 le_rfl hw
      have hser : api_to_readable (.compound [(k1, w1)]) =
          k1.data ++ ':' :: _to_string w1 := rfl
      rw [hser]
      have hstrip : pyStrip (k1.data ++ ':' :: _to_string w1) =
          k1.data ++ ':' :: _to_string w1 := by
        apply pyStrip_eq_self
        intro c hc
        rcases List.mem_append.mp hc with hc | hc
        · exact (safeTextChar_props c (hkall c hc)).1
        · rcases List.mem_cons.mp hc with rfl | hc2
          · decide
          · exact (hwch c hc2).1
      have hdropk : (k1.data ++ ':' :: _to_string w1).drop k1.data.length =
          ':' :: _to_string w1 := by
        have h2 := drop_append (k1.data ++ ':' :: _to_string w1) 0 k1.data
          (':' :: _to_string w1) (by simp)
        simpa using h2
      have hdropv : (k1.data ++ ':' :: _to_string w1).drop (k1.data.length + 1) =
          _to_string w1 ++ [] := by
        rw [List.append_nil]
        exact (drop_cons_getD _ _ _ _ hdropk).2.2
      have hfuel : needV w1 ≤ parseFuel (k1.data ++ ':' :: _to_string w1) := by
        have hb := needV_le_ser (needV w1) w1 le_rfl hw
        rw [parseFuel]
        simp only [List.length_append, List.length_cons]
        omega
      have hval := (parse_ser (parseFuel (k1.data ++ ':' :: _to_string w1))).1 w1
        (k1.data ++ ':' :: _to_string w1) (k1.data.length + 1) [] hw hdropv
        (Or.inl rfl) hfuel
      rw [parseChars]
      simp only [hstrip]
      rw [if_neg (by simp)]
      simp only [topKeyMatch_ser k1 w1 hk hw, hval]
    | cons e2 r2 =>
      have h0 := h
      rw [SafeNode] at h
      simp only [Bool.and_eq_true] at h
      obtain ⟨hk1, hw1⟩ := SafeEntries_mem _ h.2 k1 w1 (by simp)
      obtain ⟨hk1ne, hk1all⟩ := safeKey_props k1 hk1
      obtain ⟨d0, ks0, hkd⟩ : ∃ d0 ks0, k1.data = d0 :: ks0 := by
        cases hx : k1.data with
        | nil => exact absurd hx hk1ne
        | cons a b => exact ⟨a, b, rfl⟩
      obtain ⟨hne0, hch⟩ := ser_facts (needV (.compound ((k1, w1) :: e2 :: r2))) _
        le_rfl h0
      have hserA : api_to_readable (.compound ((k1, w1) :: e2 :: r2)) =
          _to_string (.compound ((k1, w1) :: e2 :: r2)) := rfl
      rw [hserA]
      have hstrip : pyStrip (_to_string (.compound ((k1, w1) :: e2 :: r2))) =
          _to_string (.compound ((k1, w1) :: e2 :: r2)) :=
        pyStrip_eq_self _ (fun c hc => (hch c hc).1)
      have hshape : _to_string (.compound ((k1, w1) :: e2 :: r2)) =
          '\x7b' :: (joinComma (((k1, w1) :: e2 :: r2).map
            (fun e => e.1.data ++ ':' :: _to_string e.2)) ++ '\x7d' :: []) := by
        rw [ser_compound, entry_strings_safe _ h.2]
      have hrun : class_run (_to_string (.compound ((k1, w1) :: e2 :: r2))) 0 = 0 := by
        have h2 := class_run_spec (_to_string (.compound ((k1, w1) :: e2 :: r2)))
          [] (_to_string (.compound ((k1, w1) :: e2 :: r2))) 0 (by simp) (by simp)
          (Or.inr ⟨'\x7b', joinComma (((k1, w1) :: e2 :: r2).map
            (fun e => e.1.data ++ ':' :: _to_string e.2)) ++ '\x7d' :: [],
            hshape, by decide⟩)
        simpa using h2
      have htop : topKeyMatch (_to_string (.compound ((k1, w1) :: e2 :: r2))) =
          none := by
        rw [topKeyMatch]
        simp only [hrun]
        simp
      have hhead : (_to_string (.compound ((k1, w1) :: e2 :: r2))).getD 0 ' ' =
          '\x7b' := by
        rw [hshape]
        simp
      have hlast : (_to_string (.compound ((k1, w1) :: e2 :: r2))).getLastD ' ' =
          '\x7d' := by
        have hshape2 : _to_string (.compound ((k1, w1) :: e2 :: r2)) =
            ('\x7b' :: joinComma (((k1, w1) :: e2 :: r2).map
              (fun e => e.1.data ++ ':' :: _to_string e.2))) ++ ['\x7d'] := by
          rw [hshape]
          simp
        rw [hshape2, List.getLastD_eq_getLast?, List.getLast?_concat]
        rfl
      rw [parseChars]
      simp only [hstrip, htop]
      rw [if_neg hne0, if_pos ⟨hhead, hlast⟩]
      have hF : parseFuel (_to_string (.compound ((k1, w1) :: e2 :: r2))) =
          2 * (_to_string (.compound ((k1, w1) :: e2 :: r2))).length + 1 + 1 := by
        rw [parseFuel]
      rw [hF, _parse_compound]
      have hdrop1 : (_to_string (.compound ((k1, w1) :: e2 :: r2))).drop 1 =
          joinComma (((k1, w1) :: e2 :: r2).map
            (fun e => e.1.data ++ ':' :: _to_string e.2)) ++ '\x7d' :: [] := by
        rw [hshape]
        simp
      simp only [List.map_cons] at hdrop1
      have hJA : ∃ A, joinComma ((k1.data ++ ':' :: _to_string w1) ::
          (e2.1.data ++ ':' :: _to_string e2.2) ::
          r2.map (fun e => e.1.data ++ ':' :: _to_string e.2)) =
          (k1.data ++ ':' :: _to_string w1) ++ A :=
        ⟨',' :: joinComma ((e2.1.data ++ ':' :: _to_string e2.2) ::
          r2.map (fun e => e.1.data ++ ':' :: _to_string e.2)), by rw [joinComma]⟩
      obtain ⟨A0, hJ0⟩ := hJA
      have hdropJ : (_to_string (.compound ((k1, w1) :: e2 :: r2))).drop 1 =
          d0 :: (ks0 ++ ':' :: (_to_string w1 ++ (A0 ++ '\x7d' :: []))) := by
        rw [hdrop1, hJ0, hkd]
        simp [List.append_assoc]
      obtain ⟨hg1, hl1, -⟩ := drop_cons_getD _ 1 _ _ hdropJ
      have hd0safe := safeTextChar_props d0 (hk1all d0 (by rw [hkd]; simp))
      have hskip1 : skip_whitespace (_to_string (.compound ((k1, w1) :: e2 :: r2))) 1 =
          1 := skip_whitespace_cons _ 1 _ _ hdropJ hd0safe.1
      simp only [hskip1, hg1]
      rw [if_neg (by push_neg; exact ⟨by omega, hd0safe.2.2.1⟩)]
      have hfuel : needE ((k1, w1) :: e2 :: r2) ≤
          2 * (_to_string (.compound ((k1, w1) :: e2 :: r2))).length + 1 := by
        have hb := needV_le_ser (needV (.compound ((k1, w1) :: e2 :: r2))) _ le_rfl h0
        rw [needV] at hb
        omega
      have hloop := (parse_ser
          (2 * (_to_string (.compound ((k1, w1) :: e2 :: r2))).length + 1)).2.1
        ((k1, w1) :: e2 :: r2) (_to_string (.compound ((k1, w1) :: e2 :: r2))) 1 [] []
        (by simp) h.1 h.2 (by intro e he p hp; simp at hp) hdrop1 hfuel
      simp only [List.map_cons] at hloop
      rw [hloop]
      simp

/-- C1 witness: a concrete two-entry document — a list holding a Byte, a
string, and a nested compound with a negative Int, plus an out-of-range
Short — round-trips exactly through serialize-then-parse. -/
theorem C1_roundtrip_safe_witness :
    SafeNode (.compound
      [("Items", .pylist [.tagged 1 (.vInt 7), .tagged 8 (.vStr "abc"),
          .compound [("lvl", .tagged 3 (.vInt (-2)))]]),
       ("Count", .tagged 2 (.vInt 300))]) = true ∧
    parseChars (api_to_readable (.compound
      [("Items", .pylist [.tagged 1 (.vInt 7), .tagged 8 (.vStr "abc"),
          .compound [("lvl", .tagged 3 (.vInt (-2)))]]),
       ("Count", .tagged 2 (.vInt 300))])) = .ok
      [("Items", .pylist [.tagged 1 (.vInt 7), .tagged 8 (.vStr "abc"),
          .compound [("lvl", .tagged 3 (.vInt (-2)))]]),
       ("Count", .tagged 2 (.vInt 300))] :=
  ⟨by decide, C1_roundtrip_safe _ (by decide)⟩

/-- C2 (amended): numeric literals are never range-checked.  For every
integer value v — in range for a byte or not — the literal `str(v)+"b"`
classifies as (Byte, v); in particular `[B;200b]` parses to a Byte typed
array holding 200 rather than failing, and no range error exists. -/
theorem C2_no_range_check :
    (∀ v : Int, _parse_simple_value (intStr v ++ ['b']) = (.vInt v, 1)) ∧
    parse_readable_nbt "x:[B;200b]" = .ok [("x", .taggedArr 7 [.vInt 200])] :=
  ⟨fun v => simple_value_int_suffix v 'b' 1 rfl, rfl⟩

end Nbt
